import Mathlib

/-!
# Verification of the dynamic train-routing application

This file is a shallow embedding, in Lean 4, of the core of the train-routing
application (files `src/App.jsx` and `src/RailwayMap.jsx`):

* the graph model (stations, weighted undirected links),
* the shortest-path engine (`dijkstra` in `App.jsx`, together with its
  insertion-order-stable array priority queue),
* the journey state machine (`handleAddEdge`, `handleCalculatePath`,
  `startSimulation`, `handleProceed`, `stopSimulation`, and the re-routing
  `useEffect`),
* the station/edge editor of `RailwayMap.jsx` (`changeStationCount`, `addEdge`).

Modelling conventions:

* Station identifiers are strings.  JavaScript truthiness tests on strings
  (`if (!startId)`, `while (currentNode)`, `if (trainPosition)`) are modelled
  as comparisons with the empty string; `null`/`undefined` values are
  modelled with `Option`.
* The JavaScript number stored in the `distances` object is either a natural
  number, `Infinity`, or (for keys that were never assigned) `undefined`.
  The three cases are modelled by the type `JSNum`; the comparisons performed
  by the source (`=== 0`, `!== Infinity`, `<`) are modelled case by case with
  JavaScript semantics (any comparison with `undefined` is `NaN`-like and
  yields `false`).
* Edge weights always enter the system through `handleAddEdge`, which rejects
  values that are not positive integers, so stored weights are modelled as
  naturals; the raw form input is modelled as `Option Int` (`none` models a
  `NaN` result of `parseInt`).
* The `while` loops of `dijkstra` (the queue loop and the predecessor-chain
  walk) are modelled with explicit fuel; the fuel amounts `dijkstraFuel` and
  `reconFuel` are proved sufficient below for every graph whose weights are
  positive, which is an invariant of the application.
* React state is modelled as a record `AppState`, and every handler as a pure
  function `AppState → AppState`.  `addLog` keeps the ten most recent
  messages; the timestamp prefix added by the source is not modelled.
-/

/-- Station identifiers (the `id` field of a node object). -/
abbrev Station := String

/-- A railroad link as stored in the `edges` React state of `App.jsx`:
an object `{ source, target, weight }`. -/
structure Edge where
  source : Station
  target : Station
  weight : Nat
deriving DecidableEq, Repr

/-- A snapshot of the graph read by `dijkstra`: the `nodes` ids and `edges`. -/
structure Graph where
  nodes : List Station
  edges : List Edge
deriving DecidableEq, Repr

/-- `EdgeBtw G u v w` says some link of `G` joins `u` and `v` (in either
orientation, links being undirected) and has weight `w`. -/
def EdgeBtw (G : Graph) (u v : Station) (w : Nat) : Prop :=
  ∃ ed ∈ G.edges, ed.weight = w ∧
    ((ed.source = u ∧ ed.target = v) ∨ (ed.source = v ∧ ed.target = u))

/-- `IsWalk G p s v c`: the station sequence `p` is a walk in `G` from `s`
to `v` of total link weight `c` (consecutive elements joined by links,
weights summed with multiplicity along the walk). -/
inductive IsWalk (G : Graph) : List Station → Station → Station → Nat → Prop
  | single (v : Station) (hv : v ∈ G.nodes) : IsWalk G [v] v v 0
  | snoc (p : List Station) (s u v : Station) (w c : Nat)
      (hp : IsWalk G p s u c) (h : EdgeBtw G u v w) :
      IsWalk G (p ++ [v]) s v (c + w)

/-- `e` is reachable from `s` in `G`: some walk joins them. -/
def Reachable (G : Graph) (s e : Station) : Prop :=
  ∃ p c, IsWalk G p s e c

/-- The set of total weights of walks from `s` to `e` in `G`. -/
def walkCosts (G : Graph) (s e : Station) : Set Nat :=
  { c | ∃ p, IsWalk G p s e c }

/-- The largest link weight of the graph (`0` for an edgeless graph); only
used to size the loop fuel. -/
def maxWeight (G : Graph) : Nat :=
  G.edges.foldr (fun ed m => max ed.weight m) 0

/-- The value of a JavaScript number slot of the `distances` object:
a finite number, `Infinity`, or `undefined` (never-assigned key; arithmetic
on it produces `NaN`, and every `<` comparison involving it is false). -/
inductive JSNum where
  | undef : JSNum
  | fin : Nat → JSNum
  | inf : JSNum
deriving DecidableEq, Repr

/-- One entry of the `PriorityQueue`: `{ val, priority }`.  Priorities are
always finite numbers when enqueued. -/
abbrev PQEntry := Station × Nat

/-- The comparison `(a, b) => a.priority - b.priority` used by
`PriorityQueue.sort`. -/
def pqLE (a b : PQEntry) : Prop := a.2 ≤ b.2

instance : DecidableRel pqLE := fun a b => Nat.decLe a.2 b.2

instance : IsTotal PQEntry pqLE := ⟨fun a b => Nat.le_total a.2 b.2⟩

instance : IsTrans PQEntry pqLE := ⟨fun _ _ _ h1 h2 => Nat.le_trans h1 h2⟩

/-- `PriorityQueue.enqueue`: push the entry and re-sort the array by
priority.  `Array.prototype.sort` is a stable sort; every stable sort
produces the same output (equal keys keep their relative order, which
together with sortedness and the multiset of entries determines the
result), so it is modelled by the stable `List.insertionSort`, which the
kernel can evaluate. -/
def pqEnqueue (q : List PQEntry) (v : Station) (priority : Nat) : List PQEntry :=
  List.insertionSort pqLE (q ++ [(v, priority)])

/-- The mutable state of one `dijkstra` invocation: the `distances` and
`previous` objects (total functions, `undefined`/`null` for absent keys) and
the priority queue's `values` array. -/
structure DState where
  dist : Station → JSNum
  prev : Station → Option Station
  pq : List PQEntry

/-- The initialisation loop of `dijkstra`:
`nodes.forEach(node => { distances[node.id] = node.id === startId ? 0 : Infinity;
previous[node.id] = null; })`. -/
def initDist (G : Graph) (startId : Station) : Station → JSNum :=
  G.nodes.foldl
    (fun f node => fun x =>
      if x = node then (if node = startId then JSNum.fin 0 else JSNum.inf) else f x)
    (fun _ => JSNum.undef)

/-- Processing of one neighbouring edge of the dequeued station `u`:
`candidate = distances[u] + edge.weight; if (candidate < distances[nId]) {...}`.
If `distances[u]` is `Infinity` or `undefined` the candidate is `Infinity`
or `NaN` and the comparison is false in every case, so nothing happens. -/
def relaxEdge (u : Station) (st : DState) (ed : Edge) : DState :=
  let nId := if ed.source = u then ed.target else ed.source
  match st.dist u with
  | JSNum.fin du =>
      let candidate := du + ed.weight
      let doUpd : Bool :=
        match st.dist nId with
        | JSNum.fin dn => candidate < dn
        | JSNum.inf => true
        | JSNum.undef => false
      if doUpd then
        { dist := fun x => if x = nId then JSNum.fin candidate else st.dist x
          prev := fun x => if x = nId then some u else st.prev x
          pq := pqEnqueue st.pq nId candidate }
      else st
  | _ => st

/-- The neighbour loop of `dijkstra` for the dequeued station `u`:
filter the edges touching `u` and relax each in order. -/
def relaxNbrs (G : Graph) (u : Station) (st : DState) : DState :=
  (G.edges.filter (fun ed => ed.source == u || ed.target == u)).foldl
    (relaxEdge u) st

/-- The path-reconstruction loop of `dijkstra`:
`while (currentNode) { path.unshift(currentNode); currentNode = previous[currentNode]; }`.
`none` models `null`/`undefined` and the empty string is falsy.  The fuel is
proved sufficient below whenever the predecessor chains come from a run on a
positively-weighted graph; on exhaustion the loop is cut short. -/
def reconstruct (prev : Station → Option Station) :
    Nat → Option Station → List Station → List Station
  | _, none, acc => acc
  | fuel, some cur, acc =>
      if cur = "" then acc
      else
        match fuel with
        | 0 => cur :: acc
        | f + 1 => reconstruct prev f (prev cur) (cur :: acc)

/-- Fuel for `reconstruct`: strictly more than any finite distance a run on
`G` can record (finite distances are weights of duplicate-free walks). -/
def reconFuel (G : Graph) : Nat :=
  G.nodes.length * maxWeight G + 1

/-- The `while (!pq.isEmpty())` loop of `dijkstra`, with explicit fuel.
Each iteration dequeues the front entry; if it is the target the path is
reconstructed and returned, otherwise the guard
`if (smallest && distances[smallest] !== Infinity)` decides whether the
neighbours are relaxed.  `none` signals fuel exhaustion (proved impossible
below for positively-weighted graphs). -/
def dijkstraLoop (G : Graph) (endId : Station) :
    Nat → DState → Option (List Station)
  | 0, _ => none
  | fuel + 1, st =>
      match st.pq with
      | [] => some []
      | (smallest, _) :: rest =>
          if smallest = endId then
            some (reconstruct st.prev (reconFuel G) (some endId) [])
          else
            let st1 : DState := { st with pq := rest }
            let st2 : DState :=
              if smallest ≠ "" ∧ st1.dist smallest ≠ JSNum.inf then
                relaxNbrs G smallest st1
              else st1
            dijkstraLoop G endId fuel st2

/-- Fuel for the queue loop, proved sufficient below: strictly more than
(initial queue length) + (number of possible relaxations). -/
def dijkstraFuel (G : Graph) : Nat :=
  G.nodes.length * (G.nodes.length * maxWeight G + 1) + 2

/-- The shortest-path engine `dijkstra(startId, endId)` of `App.jsx`,
computed over the graph snapshot `G`.  Returns the path as a station list;
the empty list signals "no path". -/
def dijkstra (G : Graph) (startId endId : Station) : List Station :=
  if startId = "" ∨ endId = "" ∨ G.nodes = [] then []
  else
    let dist0 := initDist G startId
    let pq0 : List PQEntry := if dist0 startId = JSNum.fin 0 then [(startId, 0)] else []
    match dijkstraLoop G endId (dijkstraFuel G)
        { dist := dist0, prev := fun _ => none, pq := pq0 } with
    | some p => p
    | none => []

/-- The React state of `App.jsx` that the core handlers read and write.
`numStations` and the D3 fields are visualisation-only and not modelled. -/
structure AppState where
  nodes : List Station
  edges : List Edge
  sourceNode : Station
  destNode : Station
  shortestPath : List Station
  trainPosition : Option Station
  isSimulating : Bool
  logs : List String
deriving DecidableEq, Repr

/-- The graph snapshot that `dijkstra` closes over. -/
def AppState.graph (S : AppState) : Graph :=
  { nodes := S.nodes, edges := S.edges }

/-- `addLog`: prepend the message and keep the ten most recent entries
(the timestamp prefix of the source is not modelled). -/
def addLog (message : String) (logs : List String) : List String :=
  (message :: logs).take 10

/-- `stopSimulation`: clear the active flag and the train position, keep
`shortestPath`, and log. -/
def stopSimulation (S : AppState) : AppState :=
  { S with
    isSimulating := false
    trainPosition := none
    logs := addLog "Simulation stopped." S.logs }

/-- `String.fromCharCode(65 + i)` for `i = 0, …, n-1`: the fresh alphabetic
station identifiers. -/
def generateStationIds (n : Nat) : List Station :=
  (List.range n).map (fun i => String.mk [Char.ofNat (65 + i)])

/-- The graph-initialisation `useEffect` of `App.jsx`, reacting to a change
of `numStations` (an integer; the `isNaN` guard is subsumed).  Out-of-range
requests are ignored; otherwise stations are regenerated, the edges and the
journey are cleared. -/
def appInitStations (S : AppState) (numStations : Int) : AppState :=
  if numStations < 2 ∨ 15 < numStations then S
  else
    let ids := generateStationIds numStations.toNat
    let S1 : AppState :=
      { S with
        nodes := ids
        edges := []
        sourceNode := ""
        destNode := ""
        shortestPath := [] }
    let S2 := stopSimulation S1
    { S2 with
      logs := addLog ("Generated " ++ toString numStations ++ " new stations.") S2.logs }

/-- The rejection report of `handleAddEdge`. -/
def invalidEdgeMsg : String :=
  "Error: Invalid edge. Ensure stations are different and weight is positive."

/-- The unordered-pair test used by
`edges.find(edge => (edge.source === from && edge.target === to) || …)`. -/
def pairMatch (ed : Edge) (f t : Station) : Bool :=
  (ed.source == f && ed.target == t) || (ed.source == t && ed.target == f)

/-- `edges.map(edge => edge === existingEdge ? { ...edge, weight } : edge)`:
object identity singles out the first found match, so exactly the first
pair-matching entry has its weight replaced. -/
def replaceFirstWeight : List Edge → Station → Station → Nat → List Edge
  | [], _, _, _ => []
  | ed :: rest, f, t, w =>
      if pairMatch ed f t then { ed with weight := w } :: rest
      else ed :: replaceFirstWeight rest f t w

/-- `handleAddEdge` of `App.jsx`.  The form's weight field is parsed with
`parseInt`; `none` models a `NaN` result.  A self-loop or a non-positive
weight is rejected with `invalidEdgeMsg` and no other state change;
otherwise the link's weight is updated in place (existing unordered pair)
or a new link is appended. -/
def handleAddEdge (S : AppState) (f t : Station) (w : Option Int) : AppState :=
  match w with
  | none => { S with logs := addLog invalidEdgeMsg S.logs }
  | some wv =>
      if f = t ∨ wv ≤ 0 then { S with logs := addLog invalidEdgeMsg S.logs }
      else
        if S.edges.any (fun ed => pairMatch ed f t) then
          { S with
            edges := replaceFirstWeight S.edges f t wv.toNat
            logs := addLog ("Updated weight between " ++ f ++ " and " ++ t ++
              " to " ++ toString wv.toNat ++ ".") S.logs }
        else
          { S with
            edges := S.edges ++ [⟨f, t, wv.toNat⟩]
            logs := addLog ("Added railroad between " ++ f ++ " and " ++ t ++
              " with distance " ++ toString wv.toNat ++ ".") S.logs }

/-- `path.join(' -> ')`. -/
def joinArrow (p : List Station) : String :=
  String.intercalate " -> " p

/-- `handleCalculatePath`: requires both endpoints selected, stops any
active simulation, recomputes `dijkstra` on the current graph, and stores
the result (success keeps it, failure clears the displayed path). -/
def handleCalculatePath (S : AppState) : AppState :=
  if S.sourceNode = "" ∨ S.destNode = "" then
    { S with
      logs := addLog "Error: Please select both source and destination stations." S.logs }
  else
    let S1 := stopSimulation S
    let path := dijkstra S.graph S.sourceNode S.destNode
    if path.length > 0 then
      { S1 with
        shortestPath := path
        trainPosition := none
        logs := addLog ("Shortest path from " ++ S.sourceNode ++ " to " ++
          S.destNode ++ ": " ++ joinArrow path) S1.logs }
    else
      { S1 with
        shortestPath := []
        logs := addLog ("No path found from " ++ S.sourceNode ++ " to " ++
          S.destNode ++ ".") S1.logs }

/-- `startSimulation`: from a computed path with both endpoints selected,
place the train at `sourceNode` and raise the active flag; otherwise only
log. -/
def startSimulation (S : AppState) : AppState :=
  if S.shortestPath.length > 0 ∧ S.sourceNode ≠ "" ∧ S.destNode ≠ "" then
    { S with
      isSimulating := true
      trainPosition := some S.sourceNode
      logs := addLog ("Starting journey at Station " ++ S.sourceNode ++
        ". Waiting for dispatch.") S.logs }
  else
    { S with logs := addLog "Cannot start: Calculate a path first." S.logs }

/-- `Array.prototype.indexOf`: index of the first occurrence, `-1` when
absent. -/
def jsIndexOf (l : List Station) (x : Station) : Int :=
  if x ∈ l then (List.indexOf x l : Int) else -1

/-- `l.slice(0, e)`: a negative `e` counts from the end of the array. -/
def jsSlice0 (l : List Station) (e : Int) : List Station :=
  l.take (if e < 0 then ((l.length : Int) + e).toNat else e.toNat)

/-- `handleProceed`: during an active journey, advance the train to the
next station of the path (silently doing nothing when not simulating, when
no position is set, or when the position is at or past the last index);
reaching `destNode` ends the journey. -/
def handleProceed (S : AppState) : AppState :=
  match S.trainPosition with
  | none => S
  | some pos =>
      if S.isSimulating = false ∨ pos = "" then S
      else
        let currentIndex := jsIndexOf S.shortestPath pos
        if currentIndex < (S.shortestPath.length : Int) - 1 then
          match S.shortestPath.get? (currentIndex + 1).toNat with
          | some nextPos =>
              let S1 : AppState :=
                { S with logs := addLog ("Train proceeding from Station " ++ pos ++
                    " to " ++ nextPos ++ ".") S.logs }
              let S2 : AppState := { S1 with trainPosition := some nextPos }
              if nextPos = S.destNode then
                { S2 with
                  isSimulating := false
                  logs := addLog ("Train has arrived at destination: Station " ++
                    S.destNode ++ ".") S2.logs }
              else S2
          | none => S
        else S

/-- The notification emitted by the re-route protocol when no alternative
route exists. -/
def noAltMsg (pos : Station) : String :=
  "No alternative path found from " ++ pos ++ ". Stopping simulation."

/-- The re-routing `useEffect` of `App.jsx`, triggered by any change of the
edge list during an active journey: recompute the route from the current
train position, splice it after the already-traversed prefix, and adopt it
when different; stop the simulation when no route remains.  The
`JSON.stringify` comparison of the two station-string arrays is modelled by
list equality (stringify is injective on them). -/
def reroute (S : AppState) : AppState :=
  match S.trainPosition with
  | none => S
  | some pos =>
      if S.isSimulating ∧ pos ≠ "" ∧ S.destNode ≠ "" then
        let S1 : AppState :=
          { S with logs := addLog ("Network change detected. Recalculating path from current station " ++
              pos ++ ".") S.logs }
        let seg := dijkstra S.graph pos S.destNode
        if seg.length > 0 then
          let traversed := jsSlice0 S.shortestPath (jsIndexOf S.shortestPath pos)
          let newFullPath := traversed ++ seg
          if newFullPath ≠ S.shortestPath then
            { S1 with
              shortestPath := newFullPath
              logs := addLog ("Path updated. New route: " ++ joinArrow newFullPath) S1.logs }
          else S1
        else
          stopSimulation { S1 with logs := addLog (noAltMsg pos) S1.logs }
      else S

/-- The React state of `RailwayMap.jsx`. -/
structure RMState where
  stationCount : Int
  stations : List Station
  edges : List (Station × Station)
  weights : List (String × Nat)
  newEdgeStart : Station
  newEdgeEnd : Station
  newEdgeWeight : Nat
deriving DecidableEq, Repr

/-- `makeEdgeKey`: `[a, b].sort().join("-")`; the default array sort is
lexicographic string comparison. -/
def makeEdgeKey (a b : Station) : String :=
  if a ≤ b then a ++ "-" ++ b else b ++ "-" ++ a

/-- Object update `{ ...prev, [key]: w }`: an existing key keeps its
position and receives the new value, a new key is appended. -/
def weightsSet : List (String × Nat) → String → Nat → List (String × Nat)
  | [], k, w => [(k, w)]
  | (k0, w0) :: rest, k, w =>
      if k0 = k then (k0, w) :: rest else (k0, w0) :: weightsSet rest k w

/-- `changeStationCount` of `RailwayMap.jsx`: clamp the requested count to
`[2, 26]`, regenerate the alphabetic stations, clear the edges and weights,
and reset the form selectors (`newStations[1] || newStations[0]` falls back
through JavaScript truthiness). -/
def changeStationCount (S : RMState) (count : Int) : RMState :=
  let c : Int := max 2 (min 26 count)
  let newStations := generateStationIds c.toNat
  let snd1 := (newStations.get? 1).getD ""
  { S with
    stationCount := c
    stations := newStations
    edges := []
    weights := []
    newEdgeStart := (newStations.get? 0).getD ""
    newEdgeEnd := if snd1 = "" then (newStations.get? 0).getD "" else snd1 }

/-- `addEdge` of `RailwayMap.jsx`: reject a self-loop or an existing key
(an `alert`, no state change), otherwise append the pair and record its
weight. -/
def rmAddEdge (S : RMState) : RMState :=
  if S.newEdgeStart = S.newEdgeEnd then S
  else
    let key := makeEdgeKey S.newEdgeStart S.newEdgeEnd
    if S.edges.any (fun ab => makeEdgeKey ab.1 ab.2 == key) then S
    else
      { S with
        edges := S.edges ++ [(S.newEdgeStart, S.newEdgeEnd)]
        weights := weightsSet S.weights key S.newEdgeWeight }

/-- `updateWeight` of `RailwayMap.jsx`. -/
def rmUpdateWeight (S : RMState) (key : String) (val : Nat) : RMState :=
  { S with weights := weightsSet S.weights key val }

/-! ## Predicates used by the specification claims -/

/-- Every link weight is a positive integer (the weight invariant of the
data model: `handleAddEdge` rejects everything else). -/
def PositiveWeights (G : Graph) : Prop :=
  ∀ ed ∈ G.edges, 1 ≤ ed.weight

/-- Every link joins two stations of the station set (links are created
from the two station selectors, so this always holds in the application). -/
def ClosedEdges (G : Graph) : Prop :=
  ∀ ed ∈ G.edges, ed.source ∈ G.nodes ∧ ed.target ∈ G.nodes

/-- Two links carry the same unordered pair of stations. -/
def samePair (e1 e2 : Edge) : Prop :=
  (e1.source = e2.source ∧ e1.target = e2.target) ∨
    (e1.source = e2.target ∧ e1.target = e2.source)

/-- At most one link per unordered pair of stations. -/
def NoDupPairs (l : List Edge) : Prop :=
  l.Pairwise (fun a b => ¬ samePair a b)

/-- Same unordered pair, for the pair-list representation of
`RailwayMap.jsx`. -/
def rmSamePair (a b : Station × Station) : Prop :=
  (a.1 = b.1 ∧ a.2 = b.2) ∨ (a.1 = b.2 ∧ a.2 = b.1)

/-- At most one `RailwayMap` edge per unordered pair. -/
def RMNoDupPairs (l : List (Station × Station)) : Prop :=
  l.Pairwise (fun a b => ¬ rmSamePair a b)

/-- The journey invariant: an active train is positioned on the current
path. -/
def JourneyInv (S : AppState) : Prop :=
  S.isSimulating = true → ∃ pos, S.trainPosition = some pos ∧ pos ∈ S.shortestPath

/-! ## Invariants of the running `dijkstra` loop

The following predicates are not part of the embedded program; they are the
loop invariants used to prove the shortest-path claims. -/

/-- The neighbour of `u` along `ed`, as computed by the source
(`edge.source === smallest ? edge.target : edge.source`). -/
def otherEnd (ed : Edge) (u : Station) : Station :=
  if ed.source = u then ed.target else ed.source

/-- `v` is fully relaxed: every link at `v` already satisfies the triangle
inequality with respect to the distance value `d` of `v`. -/
def DoneAt (G : Graph) (dist : Station → JSNum) (v : Station) (d : Nat) : Prop :=
  ∀ ed ∈ G.edges, (ed.source = v ∨ ed.target = v) →
    ∃ c, dist (otherEnd ed v) = JSNum.fin c ∧ c ≤ d + ed.weight

/-- `PD G dist p s v c`: `p` is a walk from `s` to `v` of weight `c` whose
every prefix endpoint `x` (with prefix weight `cx`) already has a recorded
finite distance `≤ cx`, and whose stations all belong to the node set.
This is the shape of the walks that witness recorded distances. -/
inductive PD (G : Graph) (dist : Station → JSNum) :
    List Station → Station → Station → Nat → Prop
  | single (v : Station) (hv : v ∈ G.nodes) (h : dist v = JSNum.fin 0) :
      PD G dist [v] v v 0
  | snoc (p : List Station) (s u v : Station) (w c : Nat)
      (hp : PD G dist p s u c) (h : EdgeBtw G u v w) (hv : v ∈ G.nodes)
      (hd : ∃ dv, dist v = JSNum.fin dv ∧ dv ≤ c + w) :
      PD G dist (p ++ [v]) s v (c + w)

/-- The edge-by-edge part of the loop invariant of one `dijkstra` run with
start station `s` (everything except the queue-or-relaxed component, which
is only restored at the end of each neighbour loop). -/
structure DCore (G : Graph) (s : Station) (st : DState) : Prop where
  sorted : st.pq.Pairwise pqLE
  entries : ∀ q ∈ st.pq, q.1 ∈ G.nodes ∧ ∃ d, st.dist q.1 = JSNum.fin d ∧ d ≤ q.2
  distNodes : ∀ v, st.dist v ≠ JSNum.undef ↔ v ∈ G.nodes
  distS : st.dist s = JSNum.fin 0 ∧ st.prev s = none
  prevChain : ∀ v d, st.dist v = JSNum.fin d → v ≠ s →
    ∃ u w du, st.prev v = some u ∧ EdgeBtw G u v w ∧ st.dist u = JSNum.fin du ∧
      du + w ≤ d ∧ u ≠ "" ∧ u ∈ G.nodes
  witness : ∀ v d, st.dist v = JSNum.fin d → ∃ p, p.Nodup ∧ PD G st.dist p s v d

/-- The full loop invariant: the core plus the queue-or-relaxed component
(every recorded distance either still has its entry in the queue or its
station is fully relaxed). -/
structure DInv (G : Graph) (s : Station) (st : DState)
    extends DCore G s st : Prop where
  pqOrDone : ∀ v d, st.dist v = JSNum.fin d →
    (v, d) ∈ st.pq ∨ DoneAt G st.dist v d

/-- The capacity of a distance slot for the termination measure: how many
more strict improvements it can undergo, capped by `K` for `Infinity`. -/
def jsCap (K : Nat) : JSNum → Nat
  | JSNum.undef => 0
  | JSNum.fin d => d
  | JSNum.inf => K

/-- Sum of slot capacities over the node set. -/
def capSum (G : Graph) (K : Nat) (dist : Station → JSNum) : Nat :=
  G.nodes.toFinset.sum (fun v => jsCap K (dist v))

/-- The termination measure of the queue loop: queue length plus remaining
improvement capacity. -/
def dMeasure (G : Graph) (st : DState) : Nat :=
  st.pq.length + capSum G (G.nodes.length * maxWeight G + 1) st.dist

/-! ## Concrete states used by witnesses and counterexamples -/

/-- The three-station example graph of the specification:
`A-B=1`, `B-C=1`, `A-C=5`. -/
def exGraph : Graph :=
  { nodes := ["A", "B", "C"]
    edges := [⟨"A", "B", 1⟩, ⟨"B", "C", 1⟩, ⟨"A", "C", 5⟩] }

/-- An in-transit journey at `A` on path `[A, B, C]` towards `C`, over a
graph where `A-B` has been edited to weight 10 (specification scenario 2). -/
def exTransit : AppState :=
  { nodes := ["A", "B", "C"]
    edges := [⟨"A", "B", 10⟩, ⟨"B", "C", 1⟩, ⟨"A", "C", 5⟩]
    sourceNode := "A"
    destNode := "C"
    shortestPath := ["A", "B", "C"]
    trainPosition := some "A"
    isSimulating := true
    logs := [] }

/-- An in-transit journey at `B` on path `[A, B, C]` towards `C`, over a
graph where `B` can no longer reach `C` (specification scenario 4). -/
def exStranded : AppState :=
  { nodes := ["A", "B", "C"]
    edges := [⟨"A", "B", 1⟩]
    sourceNode := "A"
    destNode := "C"
    shortestPath := ["A", "B", "C"]
    trainPosition := some "B"
    isSimulating := true
    logs := [] }

/-- A state with a computed path but no active journey. -/
def exIdle : AppState :=
  { nodes := ["A", "B", "C"]
    edges := [⟨"A", "B", 1⟩, ⟨"B", "C", 1⟩, ⟨"A", "C", 5⟩]
    sourceNode := "A"
    destNode := "C"
    shortestPath := ["A", "B", "C"]
    trainPosition := some "A"
    isSimulating := false
    logs := [] }

/-- An idle state with an empty path (nothing calculated yet). -/
def exEmptyPath : AppState :=
  { nodes := ["A", "B", "C"]
    edges := [⟨"A", "B", 1⟩, ⟨"B", "C", 1⟩, ⟨"A", "C", 5⟩]
    sourceNode := "A"
    destNode := "C"
    shortestPath := []
    trainPosition := none
    isSimulating := false
    logs := [] }

/-- A `RailwayMap` state with three stations and one recorded edge. -/
def exRM : RMState :=
  { stationCount := 3
    stations := ["A", "B", "C"]
    edges := [("A", "B")]
    weights := [("A-B", 2)]
    newEdgeStart := "B"
    newEdgeEnd := "C"
    newEdgeWeight := 4 }

/-! ## Basic lemmas about the helpers -/

theorem addLog_head (m : String) (l : List String) : (addLog m l).head? = some m := by
  simp [addLog]

theorem addLog_mem (m : String) (l : List String) : m ∈ addLog m l := by
  simp [addLog]

theorem generateStationIds_length (n : Nat) : (generateStationIds n).length = n := by
  simp [generateStationIds]

theorem generateStationIds_get? (n i : Nat) :
    (generateStationIds n).get? i =
      if i < n then some (String.mk [Char.ofNat (65 + i)]) else none := by
  rw [List.get?_eq_getElem?]
  simp [generateStationIds, List.getElem?_map, List.getElem?_range]
  by_cases h : i < n
  · simp [h]
  · simp [h, Nat.le_of_not_lt h]

/-- C4 helper: the clamped station count is in `[2, 26]`. -/
theorem clamp_bounds (count : Int) :
    2 ≤ max 2 (min 26 count) ∧ max 2 (min 26 count) ≤ 26 := by
  constructor
  · exact le_max_left _ _
  · exact max_le (by norm_num) (min_le_left _ _)

/-- **C4.** For every requested count, `regenerateStations`
(`changeStationCount` in `RailwayMap.jsx`) clamps the count to `[2, 26]`,
replaces the station set with a fresh alphabetic sequence of that length
(`A`, `B`, …), and unconditionally clears all links (both the edge list and
the weight map). -/
theorem c4_regenerateStations (S : RMState) (count : Int) :
    2 ≤ (changeStationCount S count).stationCount ∧
    (changeStationCount S count).stationCount ≤ 26 ∧
    (changeStationCount S count).stationCount = max 2 (min 26 count) ∧
    (changeStationCount S count).stations.length = (max 2 (min 26 count)).toNat ∧
    (∀ i : Nat, (changeStationCount S count).stations.get? i =
      if i < (max 2 (min 26 count)).toNat then some (String.mk [Char.ofNat (65 + i)])
      else none) ∧
    (changeStationCount S count).edges = [] ∧
    (changeStationCount S count).weights = [] := by
  refine ⟨(clamp_bounds count).1, (clamp_bounds count).2, rfl, ?_, ?_, rfl, rfl⟩
  · exact generateStationIds_length _
  · intro i
    exact generateStationIds_get? _ i

theorem head_append (a b : String) (c : Char) (h : a.data.head? = some c) :
    (a ++ b).data.head? = some c := by
  rw [String.data_append]
  cases hd : a.data with
  | nil => rw [hd] at h; cases h
  | cons x xs =>
      rw [hd] at h
      simpa using h

theorem updatedMsg_head (f t : Station) (n : Nat) :
    ("Updated weight between " ++ f ++ " and " ++ t ++ " to " ++ toString n ++
      ".").data.head? = some 'U' :=
  head_append _ _ _ (head_append _ _ _ (head_append _ _ _ (head_append _ _ _
    (head_append _ _ _ rfl))))

theorem addedMsg_head (f t : Station) (n : Nat) :
    ("Added railroad between " ++ f ++ " and " ++ t ++ " with distance " ++
      toString n ++ ".").data.head? = some 'A' :=
  head_append _ _ _ (head_append _ _ _ (head_append _ _ _ (head_append _ _ _
    (head_append _ _ _ rfl))))

/-- **C5.** `upsertLink(a, b, weight)` (`handleAddEdge`) is rejected with the
"invalid edge" report if and only if `a = b` or the weight input is not a
positive integer (`parseInt` yielding `NaN`, modelled `none`, or a
non-positive value); and a rejection changes nothing but the log: the whole
resulting state is the old state with only `invalidEdgeMsg` prepended to the
log (in particular the link set is unchanged).  Rejection is characterised
by full-state equality, so the "if" direction also shows an accepted edit
never produces the rejection report. -/
theorem c5_upsertLink_reject_iff (S : AppState) (f t : Station) (w : Option Int) :
    handleAddEdge S f t w = { S with logs := addLog invalidEdgeMsg S.logs } ↔
      (f = t ∨ w = none ∨ ∃ wv, w = some wv ∧ wv ≤ 0) := by
  constructor
  · intro h
    by_contra hc
    push_neg at hc
    obtain ⟨hft, hwn, hws⟩ := hc
    match w with
    | none => exact hwn rfl
    | some wv =>
      have hpos : ¬ (f = t ∨ wv ≤ 0) := by
        rintro (h1 | h2)
        · exact hft h1
        · exact absurd h2 (not_le.mpr (hws wv rfl))
      simp only [handleAddEdge] at h
      rw [if_neg hpos] at h
      by_cases hex : S.edges.any (fun ed => pairMatch ed f t)
      · rw [if_pos hex] at h
        have hlogs := congrArg (fun st : AppState => st.logs.head?) h
        simp only [addLog_head] at hlogs
        have hmsg : ("Updated weight between " ++ f ++ " and " ++ t ++ " to " ++
            toString wv.toNat ++ ".") = invalidEdgeMsg := by
          simpa [addLog] using hlogs
        have hU := updatedMsg_head f t wv.toNat
        rw [hmsg] at hU
        have hE : invalidEdgeMsg.data.head? = some 'E' := rfl
        rw [hE] at hU
        cases hU
      · rw [if_neg hex] at h
        have hlogs := congrArg (fun st : AppState => st.logs.head?) h
        simp only [addLog_head] at hlogs
        have hmsg : ("Added railroad between " ++ f ++ " and " ++ t ++
            " with distance " ++ toString wv.toNat ++ ".") = invalidEdgeMsg := by
          simpa [addLog] using hlogs
        have hA := addedMsg_head f t wv.toNat
        rw [hmsg] at hA
        have hE : invalidEdgeMsg.data.head? = some 'E' := rfl
        rw [hE] at hA
        cases hA
  · intro h
    match w with
    | none => rfl
    | some wv =>
      have : f = t ∨ wv ≤ 0 := by
        rcases h with h1 | h2 | ⟨wv2, hw, hle⟩
        · exact Or.inl h1
        · cases h2
        · cases hw
          exact Or.inr hle
      simp only [handleAddEdge]
      rw [if_pos this]

theorem mem_addLog_addLog (m a : String) (l : List String) :
    m ∈ addLog a (addLog m l) := by
  simp [addLog]

/-- **C9 counterexample.**  The claim states that invoking `proceed()` while
no journey is in transit "leaves the journey state unchanged **and emits a
log message**".  On the concrete idle state `exIdle` (inactive journey, a
parked train position, empty log), `handleProceed` returns the state
entirely unchanged and in particular emits no log message at all: the
result's log is never `addLog m` of the old log, for any message `m`.  The
silent no-op contradicts the claimed log emission. -/
theorem c9_counterexample :
    handleProceed exIdle = exIdle ∧
    (handleProceed exIdle).logs = exIdle.logs ∧
    ∀ m : String, (handleProceed exIdle).logs ≠ addLog m exIdle.logs := by
  refine ⟨rfl, rfl, ?_⟩
  intro m
  simp [exIdle, handleProceed, addLog]

/-- **C9 (amended).**  Invoking `proceed()` when no journey is in transit
(inactive flag or no position) leaves the state entirely unchanged and is
*silent* (no log message); invoking `startJourney()` when the current path
is empty leaves the whole journey state (path, position, active flag)
unchanged and emits the "Cannot start" log message.  Both operations are
total Lean functions, modelling that the handlers never throw. -/
theorem c9_invalid_ops_amended (S : AppState) :
    ((S.isSimulating = false ∨ S.trainPosition = none) → handleProceed S = S) ∧
    (S.shortestPath = [] →
      startSimulation S =
        { S with logs := addLog "Cannot start: Calculate a path first." S.logs }) := by
  constructor
  · intro h
    rcases hS : S.trainPosition with _ | pos
    · simp [handleProceed, hS]
    · rcases h with h | h
      · simp [handleProceed, hS, h]
      · rw [hS] at h
        cases h
  · intro h
    simp [startSimulation, h]

theorem c9_invalid_ops_amended_witness :
    (exIdle.isSimulating = false ∨ exIdle.trainPosition = none) ∧
    handleProceed exIdle = exIdle ∧
    exEmptyPath.shortestPath = [] ∧
    startSimulation exEmptyPath =
      { exEmptyPath with
        logs := addLog "Cannot start: Calculate a path first." exEmptyPath.logs } :=
  ⟨Or.inl rfl, (c9_invalid_ops_amended exIdle).1 (Or.inl rfl), rfl,
    (c9_invalid_ops_amended exEmptyPath).2 rfl⟩

/-- **C3.**  During the re-route protocol (active journey, train position
and destination defined), if `computePath` from the current train position
to the destination returns the empty sequence, the journey is stopped: the
active flag is cleared, the train position is cleared, the last computed
path is retained for display, and the "no alternative path — stopping"
notification is in the log. -/
theorem c3_reroute_dead_end (S : AppState) (pos : Station)
    (hsim : S.isSimulating = true) (hpos : S.trainPosition = some pos)
    (hne : pos ≠ "") (hdest : S.destNode ≠ "")
    (hempty : dijkstra S.graph pos S.destNode = []) :
    (reroute S).isSimulating = false ∧
    (reroute S).trainPosition = none ∧
    (reroute S).shortestPath = S.shortestPath ∧
    noAltMsg pos ∈ (reroute S).logs := by
  have hgoal : reroute S =
      stopSimulation
        { S with
          logs := addLog (noAltMsg pos)
            (addLog ("Network change detected. Recalculating path from current station " ++
              pos ++ ".") S.logs) } := by
    simp only [reroute, hpos]
    rw [if_pos ⟨by simp [hsim], hne, hdest⟩]
    simp only [hempty]
    rfl
  rw [hgoal]
  refine ⟨rfl, rfl, rfl, ?_⟩
  exact mem_addLog_addLog _ _ _

theorem c3_reroute_dead_end_witness :
    exStranded.isSimulating = true ∧
    exStranded.trainPosition = some "B" ∧
    ("B" : Station) ≠ "" ∧
    exStranded.destNode ≠ "" ∧
    dijkstra exStranded.graph "B" exStranded.destNode = [] ∧
    ((reroute exStranded).isSimulating = false ∧
      (reroute exStranded).trainPosition = none ∧
      (reroute exStranded).shortestPath = exStranded.shortestPath ∧
      noAltMsg "B" ∈ (reroute exStranded).logs) :=
  ⟨rfl, rfl, by decide, by decide, by decide,
    c3_reroute_dead_end exStranded "B" rfl rfl (by decide) (by decide) (by decide)⟩

theorem samePair_iff_pairMatch (ed : Edge) (f t : Station) (w : Nat) :
    samePair ed ⟨f, t, w⟩ ↔ pairMatch ed f t = true := by
  simp [samePair, pairMatch]

theorem samePair_iff_rm (a b : Edge) :
    samePair a b ↔ rmSamePair (a.source, a.target) (b.source, b.target) := by
  simp [samePair, rmSamePair]

theorem replaceFirstWeight_map (l : List Edge) (f t : Station) (w : Nat) :
    (replaceFirstWeight l f t w).map (fun ed => (ed.source, ed.target)) =
      l.map (fun ed => (ed.source, ed.target)) := by
  induction l with
  | nil => rfl
  | cons ed rest ih =>
      by_cases h : pairMatch ed f t
      · simp [replaceFirstWeight, h]
      · simp [replaceFirstWeight, h, ih]

theorem replaceFirstWeight_length (l : List Edge) (f t : Station) (w : Nat) :
    (replaceFirstWeight l f t w).length = l.length := by
  have := congrArg List.length (replaceFirstWeight_map l f t w)
  simpa using this

theorem replaceFirstWeight_hit (l : List Edge) (f t : Station) (w : Nat)
    (h : l.any (fun ed => pairMatch ed f t) = true) :
    ∃ ed ∈ replaceFirstWeight l f t w, pairMatch ed f t = true ∧ ed.weight = w := by
  induction l with
  | nil => cases h
  | cons ed rest ih =>
      by_cases hm : pairMatch ed f t
      · refine ⟨{ ed with weight := w }, ?_, ?_, rfl⟩
        · simp [replaceFirstWeight, hm]
        · simpa [pairMatch] using hm
      · have h2 : rest.any (fun ed => pairMatch ed f t) = true := by
          simpa [hm] using h
        obtain ⟨ed2, hmem, hp, hw⟩ := ih h2
        exact ⟨ed2, by simp [replaceFirstWeight, hm, hmem], hp, hw⟩

theorem noDupPairs_map (l1 l2 : List Edge)
    (h : l1.map (fun ed => (ed.source, ed.target)) =
      l2.map (fun ed => (ed.source, ed.target)))
    (hd : NoDupPairs l1) : NoDupPairs l2 := by
  unfold NoDupPairs at hd ⊢
  have h1 : (l1.map (fun ed => (ed.source, ed.target))).Pairwise
      (fun a b => ¬ rmSamePair a b) := by
    rw [List.pairwise_map]
    exact hd.imp (fun hab => by
      intro hr
      exact hab ((samePair_iff_rm _ _).mpr hr))
  rw [h, List.pairwise_map] at h1
  exact h1.imp (fun hab => by
    intro hr
    exact hab ((samePair_iff_rm _ _).mp hr))

theorem makeEdgeKey_comm (a b : Station) : makeEdgeKey a b = makeEdgeKey b a := by
  unfold makeEdgeKey
  rcases le_total a b with h | h
  · by_cases h2 : b ≤ a
    · have : a = b := le_antisymm h h2
      simp [this]
    · simp [h, h2]
  · by_cases h2 : a ≤ b
    · have : a = b := le_antisymm h2 h
      simp [this]
    · simp [h, h2]

theorem rmSamePair_key {a b : Station × Station} (h : rmSamePair a b) :
    makeEdgeKey a.1 a.2 = makeEdgeKey b.1 b.2 := by
  rcases h with ⟨h1, h2⟩ | ⟨h1, h2⟩
  · rw [h1, h2]
  · rw [h1, h2, makeEdgeKey_comm]

/-- **C6.**  The link set never contains two links for the same unordered
pair of stations: `handleAddEdge` preserves the invariant, a successful
upsert on an existing pair replaces that link's weight in place (same pair
multiset, same length, the matched link now carrying the new weight), a
successful upsert on a new pair appends exactly one link after it, and the
remaining graph-model operations (station regeneration in both components,
`addEdge` of `RailwayMap.jsx`) preserve the invariant as well. -/
theorem c6_at_most_one_link_per_pair :
    (∀ (S : AppState) (f t : Station) (w : Option Int),
      NoDupPairs S.edges → NoDupPairs (handleAddEdge S f t w).edges) ∧
    (∀ (S : AppState) (f t : Station) (wv : Int), ¬ (f = t ∨ wv ≤ 0) →
      S.edges.any (fun ed => pairMatch ed f t) = true →
      (handleAddEdge S f t (some wv)).edges.length = S.edges.length ∧
      (handleAddEdge S f t (some wv)).edges.map (fun ed => (ed.source, ed.target)) =
        S.edges.map (fun ed => (ed.source, ed.target)) ∧
      ∃ ed ∈ (handleAddEdge S f t (some wv)).edges,
        pairMatch ed f t = true ∧ ed.weight = wv.toNat) ∧
    (∀ (S : AppState) (f t : Station) (wv : Int), ¬ (f = t ∨ wv ≤ 0) →
      S.edges.any (fun ed => pairMatch ed f t) = false →
      (handleAddEdge S f t (some wv)).edges = S.edges ++ [⟨f, t, wv.toNat⟩]) ∧
    (∀ (S : AppState) (n : Int),
      NoDupPairs S.edges → NoDupPairs (appInitStations S n).edges) ∧
    (∀ S : RMState, RMNoDupPairs S.edges → RMNoDupPairs (rmAddEdge S).edges) ∧
    (∀ (S : RMState) (count : Int),
      RMNoDupPairs (changeStationCount S count).edges) := by
  have hupd : ∀ (S : AppState) (f t : Station) (wv : Int), ¬ (f = t ∨ wv ≤ 0) →
      S.edges.any (fun ed => pairMatch ed f t) = true →
      (handleAddEdge S f t (some wv)).edges = replaceFirstWeight S.edges f t wv.toNat := by
    intro S f t wv hc hex
    simp only [handleAddEdge]
    rw [if_neg hc, if_pos hex]
  have hadd : ∀ (S : AppState) (f t : Station) (wv : Int), ¬ (f = t ∨ wv ≤ 0) →
      S.edges.any (fun ed => pairMatch ed f t) = false →
      (handleAddEdge S f t (some wv)).edges = S.edges ++ [⟨f, t, wv.toNat⟩] := by
    intro S f t wv hc hex
    simp only [handleAddEdge]
    rw [if_neg hc, if_neg (by simp [hex])]
  refine ⟨?_, ?_, hadd, ?_, ?_, ?_⟩
  · intro S f t w hd
    match w with
    | none => exact hd
    | some wv =>
        by_cases hc : f = t ∨ wv ≤ 0
        · simp only [handleAddEdge]
          rw [if_pos hc]
          exact hd
        · by_cases hex : S.edges.any (fun ed => pairMatch ed f t) = true
          · rw [hupd S f t wv hc hex]
            exact noDupPairs_map _ _ (replaceFirstWeight_map _ _ _ _).symm hd
          · rw [hadd S f t wv hc (by simpa using hex)]
            unfold NoDupPairs
            rw [List.pairwise_append]
            refine ⟨hd, List.pairwise_singleton _ _, ?_⟩
            intro a ha b hb
            have hb2 : b = ⟨f, t, wv.toNat⟩ := by simpa using hb
            subst hb2
            intro hsp
            have : pairMatch a f t = true := (samePair_iff_pairMatch _ _ _ _).mp hsp
            have : S.edges.any (fun ed => pairMatch ed f t) = true :=
              List.any_eq_true.mpr ⟨a, ha, this⟩
            simp [this] at hex
  · intro S f t wv hc hex
    rw [hupd S f t wv hc hex]
    exact ⟨replaceFirstWeight_length _ _ _ _, replaceFirstWeight_map _ _ _ _,
      replaceFirstWeight_hit _ _ _ _ hex⟩
  · intro S n hd
    by_cases h : n < 2 ∨ 15 < n
    · simp only [appInitStations]
      rw [if_pos h]
      exact hd
    · simp only [appInitStations]
      rw [if_neg h]
      exact List.Pairwise.nil
  · intro S hd
    unfold rmAddEdge
    by_cases h1 : S.newEdgeStart = S.newEdgeEnd
    · rw [if_pos h1]
      exact hd
    · rw [if_neg h1]
      by_cases h2 : S.edges.any
          (fun ab => makeEdgeKey ab.1 ab.2 == makeEdgeKey S.newEdgeStart S.newEdgeEnd) = true
      · rw [if_pos h2]
        exact hd
      · rw [if_neg h2]
        unfold RMNoDupPairs
        rw [List.pairwise_append]
        refine ⟨hd, List.pairwise_singleton _ _, ?_⟩
        intro a ha b hb
        have hb2 : b = (S.newEdgeStart, S.newEdgeEnd) := by simpa using hb
        subst hb2
        intro hsp
        have hk : makeEdgeKey a.1 a.2 = makeEdgeKey S.newEdgeStart S.newEdgeEnd :=
          rmSamePair_key hsp
        have : S.edges.any
            (fun ab => makeEdgeKey ab.1 ab.2 == makeEdgeKey S.newEdgeStart S.newEdgeEnd) = true :=
          List.any_eq_true.mpr ⟨a, ha, by simpa using hk⟩
        exact h2 this
  · intro S count
    exact List.Pairwise.nil

theorem c6_at_most_one_link_per_pair_witness :
    NoDupPairs exTransit.edges ∧
    NoDupPairs (handleAddEdge exTransit "A" "B" (some 3)).edges ∧
    ¬ (("A" : Station) = "B" ∨ (3 : Int) ≤ 0) ∧
    exTransit.edges.any (fun ed => pairMatch ed "A" "B") = true ∧
    (handleAddEdge exTransit "A" "B" (some 3)).edges.length = exTransit.edges.length ∧
    exTransit.edges.any (fun ed => pairMatch ed "A" "D") = false ∧
    (handleAddEdge exTransit "A" "D" (some 3)).edges =
      exTransit.edges ++ [⟨"A", "D", (3 : Int).toNat⟩] ∧
    RMNoDupPairs exRM.edges ∧
    RMNoDupPairs (rmAddEdge exRM).edges := by
  have h1 : NoDupPairs exTransit.edges := by
    simp [NoDupPairs, exTransit, samePair]
  have h5 : RMNoDupPairs exRM.edges := by
    simp [RMNoDupPairs, exRM]
  have hc : ¬ (("A" : Station) = "B" ∨ (3 : Int) ≤ 0) := by decide
  refine ⟨h1, c6_at_most_one_link_per_pair.1 exTransit "A" "B" (some 3) h1, hc,
    by decide, (c6_at_most_one_link_per_pair.2.1 exTransit "A" "B" 3 hc (by decide)).1,
    by decide, c6_at_most_one_link_per_pair.2.2.1 exTransit "A" "D" 3 (by decide) (by decide),
    h5, c6_at_most_one_link_per_pair.2.2.2.2.1 exRM h5⟩

/-! ## The priority queue -/

theorem pqEnqueue_perm (q : List PQEntry) (v : Station) (p : Nat) :
    (pqEnqueue q v p).Perm (q ++ [(v, p)]) :=
  List.perm_insertionSort pqLE _

theorem pqEnqueue_mem {a : PQEntry} (q : List PQEntry) (v : Station) (p : Nat) :
    a ∈ pqEnqueue q v p ↔ a ∈ q ∨ a = (v, p) := by
  rw [(pqEnqueue_perm q v p).mem_iff]
  simp

theorem pqEnqueue_length (q : List PQEntry) (v : Station) (p : Nat) :
    (pqEnqueue q v p).length = q.length + 1 := by
  rw [(pqEnqueue_perm q v p).length_eq]
  simp

theorem pqEnqueue_sorted (q : List PQEntry) (v : Station) (p : Nat) :
    (pqEnqueue q v p).Pairwise pqLE :=
  List.sorted_insertionSort pqLE _

/-! ## The distance initialisation -/

theorem initDist_eq (G : Graph) (s v : Station) :
    initDist G s v =
      if v ∈ G.nodes then (if v = s then JSNum.fin 0 else JSNum.inf)
      else JSNum.undef := by
  suffices h : ∀ (l : List Station) (acc : Station → JSNum),
      (l.foldl
        (fun f node => fun x =>
          if x = node then (if node = s then JSNum.fin 0 else JSNum.inf) else f x)
        acc) v =
        if v ∈ l then (if v = s then JSNum.fin 0 else JSNum.inf) else acc v by
    exact h G.nodes _
  intro l
  induction l with
  | nil => intro acc; simp
  | cons a l ih =>
      intro acc
      rw [List.foldl_cons, ih]
      by_cases hv : v ∈ l
      · simp [hv]
      · by_cases hva : v = a
        · subst hva
          simp [hv]
        · simp [hv, hva]

/-! ## Walks -/

theorem IsWalk.ne_nil {G : Graph} {p : List Station} {s v : Station} {c : Nat}
    (h : IsWalk G p s v c) : p ≠ [] := by
  cases h <;> simp

theorem IsWalk.head_eq {G : Graph} {p : List Station} {s v : Station} {c : Nat}
    (h : IsWalk G p s v c) : p.head? = some s := by
  induction h with
  | single v hv => rfl
  | snoc p s u v w c hp h ih =>
      rcases p with _ | ⟨a, p⟩
      · cases hp.ne_nil rfl
      · simpa using ih

theorem IsWalk.last_eq {G : Graph} {p : List Station} {s v : Station} {c : Nat}
    (h : IsWalk G p s v c) : p.getLast? = some v := by
  cases h with
  | single v hv => rfl
  | snoc p s u v w c hp h => simp [List.getLast?_append]

theorem IsWalk.start_mem {G : Graph} {p : List Station} {s v : Station} {c : Nat}
    (h : IsWalk G p s v c) : s ∈ G.nodes := by
  induction h with
  | single v hv => exact hv
  | snoc p s u v w c hp h ih => exact ih

theorem edgeBtw_pos {G : Graph} {u v : Station} {w : Nat}
    (HW : PositiveWeights G) (h : EdgeBtw G u v w) : 1 ≤ w := by
  obtain ⟨ed, hed, hw, _⟩ := h
  exact hw ▸ HW ed hed

theorem weight_le_foldr (l : List Edge) (ed : Edge) (h : ed ∈ l) :
    ed.weight ≤ l.foldr (fun ed m => max ed.weight m) 0 := by
  induction l with
  | nil => cases h
  | cons a l ih =>
      rcases List.mem_cons.mp h with h | h
      · subst h
        exact le_max_left _ _
      · exact le_trans (ih h) (le_max_right _ _)

theorem weight_le_maxWeight {G : Graph} {ed : Edge} (h : ed ∈ G.edges) :
    ed.weight ≤ maxWeight G :=
  weight_le_foldr G.edges ed h

theorem edgeBtw_le_maxWeight {G : Graph} {u v : Station} {w : Nat}
    (h : EdgeBtw G u v w) : w ≤ maxWeight G := by
  obtain ⟨ed, hed, hw, _⟩ := h
  exact hw ▸ weight_le_maxWeight hed

/-! ## Dominated walks -/

theorem PD.toIsWalk {G : Graph} {dist : Station → JSNum} {p : List Station}
    {s v : Station} {c : Nat} (h : PD G dist p s v c) : IsWalk G p s v c := by
  induction h with
  | single v hv h => exact IsWalk.single v hv
  | snoc p s u v w c hp h hv hd ih => exact IsWalk.snoc p s u v w c ih h

theorem PD.last_dist {G : Graph} {dist : Station → JSNum} {p : List Station}
    {s v : Station} {c : Nat} (h : PD G dist p s v c) :
    ∃ dv, dist v = JSNum.fin dv ∧ dv ≤ c := by
  cases h with
  | single v hv h => exact ⟨0, h, le_refl 0⟩
  | snoc p s u v w c hp h hv hd => exact hd

theorem PD.mem_nodes {G : Graph} {dist : Station → JSNum} {p : List Station}
    {s v : Station} {c : Nat} (h : PD G dist p s v c) :
    ∀ x ∈ p, x ∈ G.nodes := by
  induction h with
  | single v hv h => simpa using hv
  | snoc p s u v w c hp h hv hd ih =>
      intro x hx
      rcases List.mem_append.mp hx with hx | hx
      · exact ih x hx
      · simpa using (List.mem_singleton.mp hx) ▸ hv

theorem PD.mem_strict {G : Graph} {dist : Station → JSNum} {p : List Station}
    {s v : Station} {c : Nat} (h : PD G dist p s v c) (HW : PositiveWeights G) :
    ∀ x ∈ p, x ≠ v →
      ∃ cx, (∃ dx, dist x = JSNum.fin dx ∧ dx ≤ cx) ∧ cx + 1 ≤ c := by
  induction h with
  | single v hv h =>
      intro x hx hxv
      cases hxv (List.mem_singleton.mp hx)
  | snoc p s u v w c hp h hv hd ih =>
      intro x hx hxv
      have hx2 : x ∈ p := by
        rcases List.mem_append.mp hx with hx | hx
        · exact hx
        · cases hxv (List.mem_singleton.mp hx)
      by_cases hxu : x = u
      · subst hxu
        refine ⟨c, hp.last_dist, ?_⟩
        have := edgeBtw_pos HW h
        omega
      · obtain ⟨cx, hdx, hcx⟩ := ih x hx2 hxu
        exact ⟨cx, hdx, by omega⟩

theorem PD.mono {G : Graph} {dist dist' : Station → JSNum} {p : List Station}
    {s v : Station} {c : Nat}
    (himp : ∀ x n, dist x = JSNum.fin n → ∃ m ≤ n, dist' x = JSNum.fin m)
    (h : PD G dist p s v c) : PD G dist' p s v c := by
  induction h with
  | single v hv h =>
      obtain ⟨m, hm, h2⟩ := himp v 0 h
      exact PD.single v hv (by simpa [Nat.le_zero.mp hm] using h2)
  | snoc p s u v w c hp h hv hd ih =>
      obtain ⟨dv, hdv, hle⟩ := hd
      obtain ⟨m, hm, h2⟩ := himp v dv hdv
      exact PD.snoc p s u v w c ih h hv ⟨m, h2, le_trans hm hle⟩

theorem PD.cost_bound {G : Graph} {dist : Station → JSNum} {p : List Station}
    {s v : Station} {c : Nat} (h : PD G dist p s v c) (hnd : p.Nodup) :
    c ≤ G.nodes.length * maxWeight G := by
  have hlen : ∀ {q : List Station} {s2 v2 : Station} {c2 : Nat},
      PD G dist q s2 v2 c2 → q.Nodup → c2 ≤ (q.length - 1) * maxWeight G := by
    intro q s2 v2 c2 hq
    induction hq with
    | single v hv h => intro _; simp
    | snoc p s u v w c hp h hv hd ih =>
        intro hnd2
        have hndp : p.Nodup := (List.nodup_append.mp hnd2).1
        have h1 := ih hndp
        have h2 := edgeBtw_le_maxWeight h
        have h3 : p.length ≥ 1 := by
          cases p with
          | nil => cases hp.toIsWalk.ne_nil rfl
          | cons a l => simp
        have hsimp : (p ++ [v]).length - 1 = p.length := by simp
        rw [hsimp]
        have h4 : (p.length - 1) * maxWeight G + maxWeight G =
            p.length * maxWeight G := by
          have h5 : p.length - 1 + 1 = p.length := Nat.sub_add_cancel h3
          calc (p.length - 1) * maxWeight G + maxWeight G
              = (p.length - 1 + 1) * maxWeight G := by ring
            _ = p.length * maxWeight G := by rw [h5]
        omega
  have hsub : p.length ≤ G.nodes.length := by
    have h1 : p.length = p.toFinset.card := (List.toFinset_card_of_nodup hnd).symm
    have h2 : p.toFinset ⊆ G.nodes.toFinset := by
      intro x hx
      rw [List.mem_toFinset] at hx ⊢
      exact h.mem_nodes x hx
    calc p.length = p.toFinset.card := h1
      _ ≤ G.nodes.toFinset.card := Finset.card_le_card h2
      _ ≤ G.nodes.length := G.nodes.toFinset_card_le
  calc c ≤ (p.length - 1) * maxWeight G := hlen h hnd
    _ ≤ G.nodes.length * maxWeight G :=
        Nat.mul_le_mul_right _ (by omega)


/-! ## One relaxation step -/

theorem relaxEdge_cases (u : Station) (st : DState) (ed : Edge) :
    relaxEdge u st ed = st ∨
    ∃ du, st.dist u = JSNum.fin du ∧
      (st.dist (otherEnd ed u) = JSNum.inf ∨
        ∃ dn, st.dist (otherEnd ed u) = JSNum.fin dn ∧ du + ed.weight < dn) ∧
      relaxEdge u st ed =
        { dist := fun x => if x = otherEnd ed u then JSNum.fin (du + ed.weight)
            else st.dist x
          prev := fun x => if x = otherEnd ed u then some u else st.prev x
          pq := pqEnqueue st.pq (otherEnd ed u) (du + ed.weight) } := by
  unfold relaxEdge otherEnd
  cases hdu : st.dist u with
  | undef => exact Or.inl rfl
  | inf => exact Or.inl rfl
  | fin du =>
      cases hdn : st.dist (if ed.source = u then ed.target else ed.source) with
      | undef => left; simp [hdn]
      | inf =>
          right
          exact ⟨du, rfl, Or.inl rfl, by simp [hdn]⟩
      | fin dn =>
          by_cases hlt : du + ed.weight < dn
          · right
            exact ⟨du, rfl, Or.inr ⟨dn, rfl, hlt⟩, by simp [hdn, hlt]⟩
          · left
            simp [hdn, hlt]

theorem otherEnd_edgeBtw {G : Graph} {ed : Edge} {u : Station} (hed : ed ∈ G.edges)
    (hadj : ed.source = u ∨ ed.target = u) :
    EdgeBtw G u (otherEnd ed u) ed.weight := by
  unfold otherEnd
  by_cases h : ed.source = u
  · exact ⟨ed, hed, rfl, Or.inl ⟨h, by simp [h]⟩⟩
  · have ht : ed.target = u := hadj.resolve_left h
    exact ⟨ed, hed, rfl, Or.inr ⟨by simp [h], ht⟩⟩

theorem update_himp {st : DState} {nId : Station} {cand : Nat}
    (hcond : st.dist nId = JSNum.inf ∨
      ∃ dn, st.dist nId = JSNum.fin dn ∧ cand < dn) :
    ∀ x n, st.dist x = JSNum.fin n →
      ∃ m ≤ n, (if x = nId then JSNum.fin cand else st.dist x) = JSNum.fin m := by
  intro x n hx
  by_cases hxn : x = nId
  · subst hxn
    rcases hcond with hinf | ⟨dn, hdn, hlt⟩
    · rw [hx] at hinf; cases hinf
    · rw [hx] at hdn
      cases hdn
      exact ⟨cand, le_of_lt hlt, by simp⟩
  · exact ⟨n, le_refl n, by simpa [hxn] using hx⟩

theorem DoneAt_mono {G : Graph} {dist dist' : Station → JSNum} {v : Station} {d : Nat}
    (himp : ∀ x n, dist x = JSNum.fin n → ∃ m ≤ n, dist' x = JSNum.fin m)
    (h : DoneAt G dist v d) : DoneAt G dist' v d := by
  intro ed hed hadj
  obtain ⟨c, hc, hle⟩ := h ed hed hadj
  obtain ⟨m, hm, h2⟩ := himp _ _ hc
  exact ⟨m, h2, le_trans hm hle⟩

theorem core_update {G : Graph} {s u nId : Station} {st : DState} {du w : Nat}
    (HW : PositiveWeights G)
    (hc : DCore G s st)
    (hdu : st.dist u = JSNum.fin du)
    (hedge : EdgeBtw G u nId w)
    (hcond : st.dist nId = JSNum.inf ∨
      ∃ dn, st.dist nId = JSNum.fin dn ∧ du + w < dn)
    (hu : u ≠ "") (hun : u ∈ G.nodes) :
    DCore G s
      { dist := fun x => if x = nId then JSNum.fin (du + w) else st.dist x
        prev := fun x => if x = nId then some u else st.prev x
        pq := pqEnqueue st.pq nId (du + w) } := by
  have hw1 : 1 ≤ w := edgeBtw_pos HW hedge
  have hnodes : nId ∈ G.nodes := by
    rcases hcond with hinf | ⟨dn, hdn, _⟩
    · exact (hc.distNodes _).mp (by rw [hinf]; simp)
    · exact (hc.distNodes _).mp (by rw [hdn]; simp)
  have hnq : nId ≠ u := by
    intro h
    rcases hcond with hinf | ⟨dn, hdn, hlt⟩
    · rw [h, hdu] at hinf; cases hinf
    · rw [h, hdu] at hdn; cases hdn; omega
  have hnS : nId ≠ s := by
    intro h
    rcases hcond with hinf | ⟨dn, hdn, hlt⟩
    · rw [h, hc.distS.1] at hinf; cases hinf
    · rw [h, hc.distS.1] at hdn; cases hdn; omega
  have himp := @update_himp st nId (du + w) hcond
  constructor
  · exact pqEnqueue_sorted _ _ _
  · intro q hq
    dsimp only at hq ⊢
    rcases (pqEnqueue_mem _ _ _).mp hq with hq | hq
    · obtain ⟨hq1, dq, hdq, hle⟩ := hc.entries q hq
      obtain ⟨m, hm, h2⟩ := himp q.1 dq hdq
      exact ⟨hq1, m, h2, le_trans hm hle⟩
    · subst hq
      exact ⟨hnodes, du + w, by simp, le_refl _⟩
  · intro v
    dsimp only
    by_cases hvn : v = nId
    · subst hvn
      rw [if_pos rfl]
      simp [hnodes]
    · rw [if_neg hvn]
      exact hc.distNodes v
  · constructor
    · dsimp only
      rw [if_neg (fun h => hnS h.symm)]
      exact hc.distS.1
    · dsimp only
      rw [if_neg (fun h => hnS h.symm)]
      exact hc.distS.2
  · intro v d hv hvs
    dsimp only at hv ⊢
    by_cases hvn : v = nId
    · subst hvn
      rw [if_pos rfl] at hv
      cases hv
      refine ⟨u, w, du, by rw [if_pos rfl], hedge, ?_, le_refl _, hu, hun⟩
      rw [if_neg hnq.symm]
      exact hdu
    · rw [if_neg hvn] at hv
      obtain ⟨u2, w2, du2, hprev, hedge2, hdu2, hle2, hne2, hmem2⟩ :=
        hc.prevChain v d hv hvs
      obtain ⟨m, hm, h2⟩ := himp u2 du2 hdu2
      exact ⟨u2, w2, m, by rw [if_neg hvn]; exact hprev, hedge2, h2,
        by omega, hne2, hmem2⟩
  · intro v d hv
    dsimp only at hv ⊢
    by_cases hvn : v = nId
    · subst hvn
      rw [if_pos rfl] at hv
      cases hv
      obtain ⟨pu, hnd, hpd⟩ := hc.witness u du hdu
      have hnotmem : v ∉ pu := by
        intro hmem
        obtain ⟨cx, ⟨dx, hdx, hdxcx⟩, hcx⟩ := hpd.mem_strict HW _ hmem hnq
        rcases hcond with hinf | ⟨dn, hdn, hlt⟩
        · rw [hdx] at hinf; cases hinf
        · rw [hdx] at hdn
          cases hdn
          omega
      refine ⟨pu ++ [v], ?_, ?_⟩
      · rw [List.nodup_append]
        refine ⟨hnd, List.nodup_singleton _, ?_⟩
        intro a ha hb
        rw [List.mem_singleton] at hb
        subst hb
        exact hnotmem ha
      · refine PD.snoc pu s u v w du (PD.mono himp hpd) hedge hnodes ?_
        exact ⟨du + w, by rw [if_pos rfl], le_refl _⟩
    · rw [if_neg hvn] at hv
      obtain ⟨p, hnd, hpd⟩ := hc.witness v d hv
      exact ⟨p, hnd, PD.mono himp hpd⟩

theorem pod_update {G : Graph} {nId : Station} {st : DState} {du w : Nat}
    (hcond : st.dist nId = JSNum.inf ∨
      ∃ dn, st.dist nId = JSNum.fin dn ∧ du + w < dn)
    (hpod : ∀ v d, st.dist v = JSNum.fin d →
      (v, d) ∈ st.pq ∨ DoneAt G st.dist v d) :
    ∀ v d, (if v = nId then JSNum.fin (du + w) else st.dist v) = JSNum.fin d →
      (v, d) ∈ pqEnqueue st.pq nId (du + w) ∨
        DoneAt G (fun x => if x = nId then JSNum.fin (du + w) else st.dist x) v d := by
  intro v d hv
  have himp := @update_himp st nId (du + w) hcond
  by_cases hvn : v = nId
  · subst hvn
    rw [if_pos rfl] at hv
    cases hv
    exact Or.inl ((pqEnqueue_mem _ _ _).mpr (Or.inr rfl))
  · rw [if_neg hvn] at hv
    rcases hpod v d hv with h | h
    · exact Or.inl ((pqEnqueue_mem _ _ _).mpr (Or.inl h))
    · exact Or.inr (DoneAt_mono himp h)

theorem relaxEdge_himp (u : Station) (st : DState) (ed : Edge) :
    ∀ x n, st.dist x = JSNum.fin n →
      ∃ m ≤ n, (relaxEdge u st ed).dist x = JSNum.fin m := by
  intro x n hx
  rcases relaxEdge_cases u st ed with hid | ⟨du, hdu, hcond, heq⟩
  · exact ⟨n, le_refl n, by rw [hid, hx]⟩
  · rw [heq]
    exact update_himp hcond x n hx

theorem relaxEdge_undef_iff (u : Station) (st : DState) (ed : Edge) :
    ∀ x, (relaxEdge u st ed).dist x = JSNum.undef ↔ st.dist x = JSNum.undef := by
  intro x
  rcases relaxEdge_cases u st ed with hid | ⟨du, hdu, hcond, heq⟩
  · rw [hid]
  · rw [heq]
    dsimp only
    by_cases hxn : x = otherEnd ed u
    · subst hxn
      rw [if_pos rfl]
      rcases hcond with hinf | ⟨dn, hdn, _⟩
      · rw [hinf]; simp
      · rw [hdn]; simp
    · rw [if_neg hxn]

theorem relaxEdge_pq_mono (u : Station) (st : DState) (ed : Edge) {a : PQEntry}
    (ha : a ∈ st.pq) : a ∈ (relaxEdge u st ed).pq := by
  rcases relaxEdge_cases u st ed with hid | ⟨du, hdu, hcond, heq⟩
  · rw [hid]; exact ha
  · rw [heq]
    exact (pqEnqueue_mem _ _ _).mpr (Or.inl ha)

theorem relaxEdge_dist_u_eq (u : Station) (st : DState) (ed : Edge) :
    (relaxEdge u st ed).dist u = st.dist u := by
  rcases relaxEdge_cases u st ed with hid | ⟨du, hdu, hcond, heq⟩
  · rw [hid]
  · rw [heq]
    dsimp only
    have hnq : u ≠ otherEnd ed u := by
      intro h
      rcases hcond with hinf | ⟨dn, hdn, hlt⟩
      · rw [← h, hdu] at hinf; cases hinf
      · rw [← h, hdu] at hdn; cases hdn; omega
    rw [if_neg hnq]

theorem relaxEdge_post {u : Station} {st : DState} {ed : Edge} {du : Nat}
    (hdu : st.dist u = JSNum.fin du)
    (hne : st.dist (otherEnd ed u) ≠ JSNum.undef) :
    ∃ c, (relaxEdge u st ed).dist (otherEnd ed u) = JSNum.fin c ∧
      c ≤ du + ed.weight := by
  unfold relaxEdge otherEnd
  unfold otherEnd at hne
  cases hdn : st.dist (if ed.source = u then ed.target else ed.source) with
  | undef => exact absurd hdn hne
  | inf =>
      refine ⟨du + ed.weight, ?_, le_refl _⟩
      simp [hdu, hdn]
  | fin dn =>
      by_cases hlt : du + ed.weight < dn
      · refine ⟨du + ed.weight, ?_, le_refl _⟩
        simp [hdu, hdn, hlt]
      · refine ⟨dn, ?_, by omega⟩
        simp [hdu, hdn, hlt]

theorem relaxEdge_core2 {G : Graph} {s u : Station} {st : DState} {ed : Edge}
    (HW : PositiveWeights G) (hed : ed ∈ G.edges)
    (hadj : ed.source = u ∨ ed.target = u) (hu : u ≠ "") (hun : u ∈ G.nodes)
    (hc : DCore G s st) : DCore G s (relaxEdge u st ed) := by
  rcases relaxEdge_cases u st ed with hid | ⟨du, hdu, hcond, heq⟩
  · rw [hid]; exact hc
  · rw [heq]
    exact core_update HW hc hdu (otherEnd_edgeBtw hed hadj) hcond hu hun

theorem relaxEdge_pod_except {G : Graph} {u : Station} {st : DState} {ed : Edge}
    (hpod : ∀ v d, v ≠ u → st.dist v = JSNum.fin d →
      (v, d) ∈ st.pq ∨ DoneAt G st.dist v d) :
    ∀ v d, v ≠ u → (relaxEdge u st ed).dist v = JSNum.fin d →
      (v, d) ∈ (relaxEdge u st ed).pq ∨ DoneAt G (relaxEdge u st ed).dist v d := by
  intro v d hvu hv
  rcases relaxEdge_cases u st ed with hid | ⟨du, hdu, hcond, heq⟩
  · rw [hid] at hv ⊢
    exact hpod v d hvu hv
  · rw [heq] at hv ⊢
    dsimp only at hv ⊢
    by_cases hvn : v = otherEnd ed u
    · subst hvn
      rw [if_pos rfl] at hv
      cases hv
      exact Or.inl ((pqEnqueue_mem _ _ _).mpr (Or.inr rfl))
    · rw [if_neg hvn] at hv
      rcases hpod v d hvu hv with h | h
      · exact Or.inl ((pqEnqueue_mem _ _ _).mpr (Or.inl h))
      · exact Or.inr (DoneAt_mono (update_himp hcond) h)

theorem relaxEdge_measure {G : Graph} {s u : Station} {st : DState} {ed : Edge}
    (HW : PositiveWeights G) (hed : ed ∈ G.edges)
    (hadj : ed.source = u ∨ ed.target = u) (hu : u ≠ "") (hun : u ∈ G.nodes)
    (hc : DCore G s st) :
    (relaxEdge u st ed).pq.length +
      capSum G (G.nodes.length * maxWeight G + 1) (relaxEdge u st ed).dist ≤
    st.pq.length + capSum G (G.nodes.length * maxWeight G + 1) st.dist := by
  rcases relaxEdge_cases u st ed with hid | ⟨du, hdu, hcond, heq⟩
  · rw [hid]
  · have hcore2 : DCore G s (relaxEdge u st ed) :=
      relaxEdge_core2 HW hed hadj hu hun hc
    have hdist : (relaxEdge u st ed).dist (otherEnd ed u) =
        JSNum.fin (du + ed.weight) := by
      rw [heq]
      dsimp only
      rw [if_pos rfl]
    have hcand : du + ed.weight ≤ G.nodes.length * maxWeight G := by
      obtain ⟨p, hnd, hpd⟩ := hcore2.witness _ _ hdist
      exact hpd.cost_bound hnd
    have hnodes : otherEnd ed u ∈ G.nodes := by
      rcases hcond with hinf | ⟨dn, hdn, _⟩
      · exact (hc.distNodes _).mp (by rw [hinf]; simp)
      · exact (hc.distNodes _).mp (by rw [hdn]; simp)
    rw [heq]
    dsimp only
    rw [pqEnqueue_length]
    have hlt : capSum G (G.nodes.length * maxWeight G + 1)
        (fun x => if x = otherEnd ed u then JSNum.fin (du + ed.weight)
          else st.dist x) <
        capSum G (G.nodes.length * maxWeight G + 1) st.dist := by
      unfold capSum
      apply Finset.sum_lt_sum
      · intro i hi
        dsimp only
        by_cases hin : i = otherEnd ed u
        · subst hin
          rw [if_pos rfl]
          rcases hcond with hinf | ⟨dn, hdn, hlt2⟩
          · rw [hinf]
            simp [jsCap]
            omega
          · rw [hdn]
            simp [jsCap]
            omega
        · rw [if_neg hin]
      · refine ⟨otherEnd ed u, List.mem_toFinset.mpr hnodes, ?_⟩
        dsimp only
        rw [if_pos rfl]
        rcases hcond with hinf | ⟨dn, hdn, hlt2⟩
        · rw [hinf]
          simp [jsCap]
          omega
        · rw [hdn]
          simp [jsCap]
          omega
    omega

/-! ## The neighbour loop -/

theorem foldl_relax_himp (u : Station) (L : List Edge) :
    ∀ (st : DState) (x : Station) (n : Nat), st.dist x = JSNum.fin n →
      ∃ m ≤ n, (L.foldl (relaxEdge u) st).dist x = JSNum.fin m := by
  induction L with
  | nil => intro st x n h; exact ⟨n, le_refl n, h⟩
  | cons ed L ih =>
      intro st x n h
      obtain ⟨m, hm, h2⟩ := relaxEdge_himp u st ed x n h
      obtain ⟨m2, hm2, h3⟩ := ih (relaxEdge u st ed) x m h2
      exact ⟨m2, le_trans hm2 hm, by rw [List.foldl_cons]; exact h3⟩

theorem foldl_relax_undef_iff (u : Station) (L : List Edge) :
    ∀ (st : DState) (x : Station),
      (L.foldl (relaxEdge u) st).dist x = JSNum.undef ↔ st.dist x = JSNum.undef := by
  induction L with
  | nil => intro st x; rfl
  | cons ed L ih =>
      intro st x
      rw [List.foldl_cons, ih, relaxEdge_undef_iff]

theorem foldl_relax_pq_mono (u : Station) (L : List Edge) :
    ∀ (st : DState) {a : PQEntry}, a ∈ st.pq →
      a ∈ (L.foldl (relaxEdge u) st).pq := by
  induction L with
  | nil => intro st a h; exact h
  | cons ed L ih =>
      intro st a h
      rw [List.foldl_cons]
      exact ih _ (relaxEdge_pq_mono u st ed h)

theorem foldl_relax_dist_u (u : Station) (L : List Edge) :
    ∀ st : DState, (L.foldl (relaxEdge u) st).dist u = st.dist u := by
  induction L with
  | nil => intro st; rfl
  | cons ed L ih =>
      intro st
      rw [List.foldl_cons, ih, relaxEdge_dist_u_eq]

theorem foldl_relax_core_measure {G : Graph} {s u : Station}
    (HW : PositiveWeights G) (hu : u ≠ "") (hun : u ∈ G.nodes) :
    ∀ (L : List Edge),
      (∀ ed ∈ L, ed ∈ G.edges ∧ (ed.source = u ∨ ed.target = u)) →
      ∀ st : DState, DCore G s st →
        DCore G s (L.foldl (relaxEdge u) st) ∧
        (L.foldl (relaxEdge u) st).pq.length +
          capSum G (G.nodes.length * maxWeight G + 1)
            (L.foldl (relaxEdge u) st).dist ≤
          st.pq.length +
            capSum G (G.nodes.length * maxWeight G + 1) st.dist := by
  intro L
  induction L with
  | nil => intro _ st hc; exact ⟨hc, le_refl _⟩
  | cons ed L ih =>
      intro hL st hc
      have hed := hL ed (List.mem_cons_self _ _)
      have hL2 : ∀ ed2 ∈ L, ed2 ∈ G.edges ∧ (ed2.source = u ∨ ed2.target = u) :=
        fun ed2 hed2 => hL ed2 (List.mem_cons_of_mem _ hed2)
      have hc1 : DCore G s (relaxEdge u st ed) :=
        relaxEdge_core2 HW hed.1 hed.2 hu hun hc
      have hm1 := relaxEdge_measure HW hed.1 hed.2 hu hun hc
      obtain ⟨hc2, hm2⟩ := ih hL2 (relaxEdge u st ed) hc1
      rw [List.foldl_cons]
      exact ⟨hc2, le_trans hm2 hm1⟩

theorem foldl_relax_pod_except {G : Graph} {u : Station} (L : List Edge) :
    ∀ st : DState,
      (∀ v d, v ≠ u → st.dist v = JSNum.fin d →
        (v, d) ∈ st.pq ∨ DoneAt G st.dist v d) →
      ∀ v d, v ≠ u → (L.foldl (relaxEdge u) st).dist v = JSNum.fin d →
        (v, d) ∈ (L.foldl (relaxEdge u) st).pq ∨
          DoneAt G (L.foldl (relaxEdge u) st).dist v d := by
  induction L with
  | nil => intro st hpod; exact hpod
  | cons ed L ih =>
      intro st hpod
      rw [List.foldl_cons]
      exact ih _ (relaxEdge_pod_except hpod)

theorem foldl_relax_done {u : Station} {du : Nat} (L : List Edge) :
    ∀ st : DState, st.dist u = JSNum.fin du →
      (∀ ed ∈ L, st.dist (otherEnd ed u) ≠ JSNum.undef) →
      ∀ ed ∈ L, ∃ c, (L.foldl (relaxEdge u) st).dist (otherEnd ed u) =
        JSNum.fin c ∧ c ≤ du + ed.weight := by
  induction L with
  | nil => intro st _ _ ed hed; cases hed
  | cons ed0 L ih =>
      intro st hdu hne ed hed
      have hdu1 : (relaxEdge u st ed0).dist u = JSNum.fin du := by
        rw [relaxEdge_dist_u_eq]; exact hdu
      rw [List.foldl_cons]
      rcases List.mem_cons.mp hed with hed2 | hed2
      · subst hed2
        obtain ⟨c, hc, hle⟩ := relaxEdge_post hdu (hne ed (List.mem_cons_self _ _))
        obtain ⟨m, hm, h2⟩ := foldl_relax_himp u L (relaxEdge u st ed) _ c hc
        exact ⟨m, h2, le_trans hm hle⟩
      · have hne1 : ∀ ed2 ∈ L,
            (relaxEdge u st ed0).dist (otherEnd ed2 u) ≠ JSNum.undef := by
          intro ed2 hed3 h
          exact hne ed2 (List.mem_cons_of_mem _ hed3)
            ((relaxEdge_undef_iff u st ed0 _).mp h)
        exact ih (relaxEdge u st ed0) hdu1 hne1 ed hed2

/-! ## Reconstruction along the predecessor chain -/

theorem reconstruct_none (prev : Station → Option Station) (fuel : Nat)
    (acc : List Station) : reconstruct prev fuel none acc = acc := by
  cases fuel <;> rfl

theorem reconstruct_succ (prev : Station → Option Station) (f : Nat) (cur : Station)
    (acc : List Station) (h : cur ≠ "") :
    reconstruct prev (f + 1) (some cur) acc =
      reconstruct prev f (prev cur) (cur :: acc) := by
  conv_lhs => rw [reconstruct]
  rw [if_neg h]

theorem reconstruct_walk {G : Graph} {s : Station} (HW : PositiveWeights G) :
    ∀ (d : Nat) (st : DState), DCore G s st →
      ∀ v, st.dist v = JSNum.fin d → v ≠ "" →
      ∀ (fuel : Nat), d < fuel → ∀ acc,
        ∃ p c, c ≤ d ∧ IsWalk G p s v c ∧
          reconstruct st.prev fuel (some v) acc = p ++ acc := by
  intro d
  induction d using Nat.strong_induction_on with
  | _ d ih =>
      intro st hc v hv hvne fuel hfuel acc
      obtain ⟨f, rfl⟩ : ∃ f, fuel = f + 1 := ⟨fuel - 1, by omega⟩
      by_cases hvs : v = s
      · subst hvs
        refine ⟨[v], 0, Nat.zero_le d,
          IsWalk.single v ((hc.distNodes v).mp (by rw [hv]; simp)), ?_⟩
        rw [reconstruct_succ _ _ _ _ hvne, hc.distS.2, reconstruct_none]
        rfl
      · obtain ⟨u, w, du, hprev, hedge, hdu, hle, hune, humem⟩ :=
          hc.prevChain v d hv hvs
        have hw1 : 1 ≤ w := edgeBtw_pos HW hedge
        have hdud : du < d := by omega
        have hduf : du < f := by omega
        obtain ⟨p, c, hcle, hwalk, hrec⟩ :=
          ih du hdud st hc u hdu hune f hduf (v :: acc)
        refine ⟨p ++ [v], c + w, by omega, IsWalk.snoc p s u v w c hwalk hedge, ?_⟩
        rw [reconstruct_succ _ _ _ _ hvne, hprev, hrec]
        simp

/-! ## The frontier argument -/

theorem otherEnd_eq {ed : Edge} {u v : Station}
    (hor : (ed.source = u ∧ ed.target = v) ∨ (ed.source = v ∧ ed.target = u)) :
    otherEnd ed u = v := by
  unfold otherEnd
  rcases hor with ⟨h1, h2⟩ | ⟨h1, h2⟩
  · rw [if_pos h1, h2]
  · by_cases h : ed.source = u
    · rw [if_pos h, h2, ← h, h1]
    · rw [if_neg h, h1]

theorem otherEnd_mem {G : Graph} {ed : Edge} {u : Station}
    (HC : ClosedEdges G) (hed : ed ∈ G.edges) : otherEnd ed u ∈ G.nodes := by
  unfold otherEnd
  by_cases h : ed.source = u
  · rw [if_pos h]
    exact (HC ed hed).2
  · rw [if_neg h]
    exact (HC ed hed).1

theorem frontier_walk {G : Graph} {st : DState} {P : Nat}
    (hbound : ∀ q ∈ st.pq, P ≤ q.2) :
    ∀ {p : List Station} {s v : Station} {c : Nat}, IsWalk G p s v c →
      DInv G s st → c < P → ∃ d ≤ c, st.dist v = JSNum.fin d := by
  intro p s v c hw
  induction hw with
  | single v hv =>
      intro hinv _
      exact ⟨0, le_refl 0, hinv.distS.1⟩
  | snoc p s2 u v w c hp h ih =>
      intro hinv hcP
      have hc2 : c < P := by omega
      obtain ⟨du, hdule, hdu⟩ := ih hinv hc2
      rcases hinv.pqOrDone u du hdu with hmem | hdone
      · have := hbound _ hmem
        omega
      · obtain ⟨ed, hed, hwq, hor⟩ := h
        have hadj : ed.source = u ∨ ed.target = u := by
          rcases hor with ⟨h1, _⟩ | ⟨_, h2⟩
          · exact Or.inl h1
          · exact Or.inr h2
        obtain ⟨cv, hcv, hcle⟩ := hdone ed hed hadj
        rw [otherEnd_eq hor] at hcv
        exact ⟨cv, by omega, hcv⟩

/-! ## Preservation of the target entry -/

theorem relaxEdge_ekept {u e : Station} {st : DState} {ed : Edge}
    (hk : ∀ d, st.dist e = JSNum.fin d → ∃ q, (e, q) ∈ st.pq) :
    ∀ d, (relaxEdge u st ed).dist e = JSNum.fin d →
      ∃ q, (e, q) ∈ (relaxEdge u st ed).pq := by
  intro d hd
  rcases relaxEdge_cases u st ed with hid | ⟨du, hdu, hcond, heq⟩
  · rw [hid] at hd ⊢
    exact hk d hd
  · rw [heq] at hd ⊢
    dsimp only at hd ⊢
    by_cases hen : e = otherEnd ed u
    · subst hen
      exact ⟨du + ed.weight, (pqEnqueue_mem _ _ _).mpr (Or.inr rfl)⟩
    · rw [if_neg hen] at hd
      obtain ⟨q, hq⟩ := hk d hd
      exact ⟨q, (pqEnqueue_mem _ _ _).mpr (Or.inl hq)⟩

theorem foldl_relax_ekept {u e : Station} (L : List Edge) :
    ∀ st : DState,
      (∀ d, st.dist e = JSNum.fin d → ∃ q, (e, q) ∈ st.pq) →
      ∀ d, (L.foldl (relaxEdge u) st).dist e = JSNum.fin d →
        ∃ q, (e, q) ∈ (L.foldl (relaxEdge u) st).pq := by
  induction L with
  | nil => intro st hk; exact hk
  | cons ed L ih =>
      intro st hk
      rw [List.foldl_cons]
      exact ih _ (relaxEdge_ekept hk)

/-! ## The queue loop -/

theorem dijkstraLoop_zero (G : Graph) (e : Station) (st : DState) :
    dijkstraLoop G e 0 st = none := rfl

theorem dijkstraLoop_nil {G : Graph} {e : Station} {fuel : Nat} {st : DState}
    (hpq : st.pq = []) : dijkstraLoop G e (fuel + 1) st = some [] := by
  conv_lhs => rw [dijkstraLoop]
  rw [hpq]

theorem dijkstraLoop_cons {G : Graph} {e : Station} {fuel : Nat} {st : DState}
    {u : Station} {p0 : Nat} {rest : List PQEntry}
    (hpq : st.pq = (u, p0) :: rest) :
    dijkstraLoop G e (fuel + 1) st =
      if u = e then some (reconstruct st.prev (reconFuel G) (some e) [])
      else
        dijkstraLoop G e fuel
          (if u ≠ "" ∧ ({ st with pq := rest } : DState).dist u ≠ JSNum.inf then
            relaxNbrs G u { st with pq := rest }
          else { st with pq := rest }) := by
  conv_lhs => rw [dijkstraLoop]
  rw [hpq]

theorem DCore_tail {G : Graph} {s : Station} {st : DState} {q : PQEntry}
    {rest : List PQEntry} (hpq : st.pq = q :: rest) (hc : DCore G s st) :
    DCore G s { st with pq := rest } := by
  have hsorted := hc.sorted
  rw [hpq] at hsorted
  refine ⟨(List.pairwise_cons.mp hsorted).2, ?_, hc.distNodes, hc.distS,
    hc.prevChain, hc.witness⟩
  intro q2 hq2
  exact hc.entries q2 (by rw [hpq]; exact List.mem_cons_of_mem _ hq2)

theorem nbr_filter_spec (G : Graph) (u : Station) :
    ∀ ed ∈ G.edges.filter (fun ed => ed.source == u || ed.target == u),
      ed ∈ G.edges ∧ (ed.source = u ∨ ed.target = u) := by
  intro ed hed
  rw [List.mem_filter] at hed
  refine ⟨hed.1, ?_⟩
  have h2 := hed.2
  simp at h2
  exact h2

theorem mem_nbr_filter {G : Graph} {u : Station} {ed : Edge}
    (hed : ed ∈ G.edges) (hadj : ed.source = u ∨ ed.target = u) :
    ed ∈ G.edges.filter (fun ed => ed.source == u || ed.target == u) := by
  rw [List.mem_filter]
  exact ⟨hed, by simp [hadj]⟩

theorem relaxNbrs_core_measure {G : Graph} {s u : Station}
    (HW : PositiveWeights G) (hu : u ≠ "") (hun : u ∈ G.nodes)
    {st : DState} (hc : DCore G s st) :
    DCore G s (relaxNbrs G u st) ∧
    (relaxNbrs G u st).pq.length +
      capSum G (G.nodes.length * maxWeight G + 1) (relaxNbrs G u st).dist ≤
      st.pq.length + capSum G (G.nodes.length * maxWeight G + 1) st.dist := by
  unfold relaxNbrs
  exact foldl_relax_core_measure HW hu hun _ (nbr_filter_spec G u) st hc

theorem relaxNbrs_done {G : Graph} {s u : Station} {du : Nat} {st : DState}
    (HC : ClosedEdges G) (hc : DCore G s st) (hdu : st.dist u = JSNum.fin du) :
    (relaxNbrs G u st).dist u = JSNum.fin du ∧
    DoneAt G (relaxNbrs G u st).dist u du := by
  unfold relaxNbrs
  have hne : ∀ ed ∈ G.edges.filter (fun ed => ed.source == u || ed.target == u),
      st.dist (otherEnd ed u) ≠ JSNum.undef := by
    intro ed hed h
    have hmem : otherEnd ed u ∈ G.nodes :=
      otherEnd_mem HC (nbr_filter_spec G u ed hed).1
    exact ((hc.distNodes _).mpr hmem) h
  constructor
  · rw [foldl_relax_dist_u]
    exact hdu
  · intro ed hed hadj
    exact foldl_relax_done _ st hdu hne ed (mem_nbr_filter hed hadj)

theorem relaxNbrs_pod {G : Graph} {s u : Station} {du : Nat} {st : DState}
    (HC : ClosedEdges G) (hc : DCore G s st) (hdu : st.dist u = JSNum.fin du)
    (hpode : ∀ v d, v ≠ u → st.dist v = JSNum.fin d →
      (v, d) ∈ st.pq ∨ DoneAt G st.dist v d) :
    ∀ v d, (relaxNbrs G u st).dist v = JSNum.fin d →
      (v, d) ∈ (relaxNbrs G u st).pq ∨ DoneAt G (relaxNbrs G u st).dist v d := by
  intro v d hv
  by_cases hvu : v = u
  · subst hvu
    obtain ⟨hdist2, hdone⟩ := @relaxNbrs_done G s _ _ _ HC hc hdu
    rw [hdist2] at hv
    cases hv
    exact Or.inr hdone
  · revert hv
    unfold relaxNbrs
    intro hv
    exact foldl_relax_pod_except _ st hpode v d hvu hv

theorem relaxNbrs_ekept {G : Graph} {u e : Station} {st : DState}
    (hk : ∀ d, st.dist e = JSNum.fin d → ∃ q, (e, q) ∈ st.pq) :
    ∀ d, (relaxNbrs G u st).dist e = JSNum.fin d →
      ∃ q, (e, q) ∈ (relaxNbrs G u st).pq := by
  unfold relaxNbrs
  exact foldl_relax_ekept _ st hk

theorem dijkstraLoop_sound {G : Graph} {s e : Station} (HW : PositiveWeights G)
    (he : e ≠ "") :
    ∀ (fuel : Nat) (st : DState), DCore G s st →
      ∀ r, dijkstraLoop G e fuel st = some r → r ≠ [] →
        (∃ c, IsWalk G r s e c) ∧ e ∈ G.nodes := by
  intro fuel
  induction fuel with
  | zero =>
      intro st hc r hr
      rw [dijkstraLoop_zero] at hr
      cases hr
  | succ f ih =>
      intro st hc r hr hrne
      cases hpq : st.pq with
      | nil =>
          rw [dijkstraLoop_nil hpq] at hr
          cases hr
          exact absurd rfl hrne
      | cons q rest =>
          obtain ⟨u, p0⟩ := q
          rw [dijkstraLoop_cons hpq] at hr
          by_cases hue : u = e
          · rw [if_pos hue] at hr
            have hhead : (u, p0) ∈ st.pq := by
              rw [hpq]; exact List.mem_cons_self _ _
            obtain ⟨hmem, d, hd, hdle⟩ := hc.entries _ hhead
            rw [hue] at hd
            obtain ⟨p, hnd, hpd⟩ := hc.witness _ _ hd
            have hb : d ≤ G.nodes.length * maxWeight G := hpd.cost_bound hnd
            have hfuelr : d < reconFuel G := by unfold reconFuel; omega
            obtain ⟨p2, c, hcle, hwalk, hrec⟩ :=
              reconstruct_walk HW d st hc e hd he (reconFuel G) hfuelr []
            cases hr
            rw [hrec]
            exact ⟨⟨c, by simpa using hwalk⟩, hue ▸ hmem⟩
          · rw [if_neg hue] at hr
            have hc1 : DCore G s { st with pq := rest } :=
              DCore_tail hpq hc
            by_cases hg : u ≠ "" ∧
                ({ st with pq := rest } : DState).dist u ≠ JSNum.inf
            · rw [if_pos hg] at hr
              have hun : u ∈ G.nodes :=
                (hc.entries _ (by rw [hpq]; exact List.mem_cons_self _ _)).1
              exact ih _ (relaxNbrs_core_measure HW hg.1 hun hc1).1 r hr hrne
            · rw [if_neg hg] at hr
              exact ih _ hc1 r hr hrne

theorem dijkstraLoop_main {G : Graph} {s e : Station} {δ : Nat}
    (HW : PositiveWeights G) (HC : ClosedEdges G) (Hem : "" ∉ G.nodes)
    (he : e ≠ "")
    (hδmem : ∃ p, IsWalk G p s e δ)
    (hδlow : ∀ c p, IsWalk G p s e c → δ ≤ c) :
    ∀ (fuel : Nat) (st : DState), DInv G s st →
      (∀ d, st.dist e = JSNum.fin d → ∃ q, (e, q) ∈ st.pq) →
      dMeasure G st < fuel →
      ∃ r, dijkstraLoop G e fuel st = some r ∧ IsWalk G r s e δ := by
  intro fuel
  induction fuel with
  | zero => intro st _ _ hm; omega
  | succ f ih =>
      intro st hinv hkept hm
      cases hpq : st.pq with
      | nil =>
          exfalso
          obtain ⟨pw, hw⟩ := hδmem
          obtain ⟨d, hdle, hd⟩ :=
            @frontier_walk G st (δ + 1)
              (by rw [hpq]; intro q hq; cases hq) _ _ _ _ hw hinv (by omega)
          obtain ⟨q, hq⟩ := hkept d hd
          rw [hpq] at hq
          cases hq
      | cons q rest =>
          obtain ⟨u, p0⟩ := q
          have hhead : (u, p0) ∈ st.pq := by
            rw [hpq]; exact List.mem_cons_self _ _
          obtain ⟨hun, du, hdu, hdule⟩ := hinv.toDCore.entries _ hhead
          have hu : u ≠ "" := fun h => Hem (h ▸ hun)
          have hbound : ∀ q2 ∈ st.pq, p0 ≤ q2.2 := by
            have hsorted := hinv.toDCore.sorted
            rw [hpq] at hsorted
            intro q2 hq2
            rw [hpq] at hq2
            rcases List.mem_cons.mp hq2 with h | h
            · subst h; exact le_refl _
            · exact (List.pairwise_cons.mp hsorted).1 q2 h
          rw [dijkstraLoop_cons hpq]
          by_cases hue : u = e
          · rw [if_pos hue]
            subst hue
            obtain ⟨p, hnd, hpd⟩ := hinv.toDCore.witness _ _ hdu
            have hwalkdu : IsWalk G p s u du := hpd.toIsWalk
            have hδle : δ ≤ du := hδlow du p hwalkdu
            have hdule2 : du ≤ δ := by
              by_cases hcase : δ < p0
              · obtain ⟨pw, hww⟩ := hδmem
                obtain ⟨d2, hd2le, hd2⟩ :=
                  @frontier_walk G st p0 hbound _ _ _ _ hww hinv hcase
                rw [hdu] at hd2
                cases hd2
                exact hd2le
              · omega
            have hdueq : du = δ := le_antisymm hdule2 hδle
            have hb : du ≤ G.nodes.length * maxWeight G := hpd.cost_bound hnd
            obtain ⟨p2, c, hcle, hwalk2, hrec⟩ :=
              reconstruct_walk HW du st hinv.toDCore u hdu he (reconFuel G)
                (by unfold reconFuel; omega) []
            have hcδ : δ ≤ c := hδlow c p2 hwalk2
            have hceq : c = δ := by omega
            refine ⟨_, rfl, ?_⟩
            rw [hrec]
            rw [← hceq]
            simpa using hwalk2
          · rw [if_neg hue]
            have hguard : u ≠ "" ∧
                ({ st with pq := rest } : DState).dist u ≠ JSNum.inf := by
              refine ⟨hu, ?_⟩
              show st.dist u ≠ JSNum.inf
              rw [hdu]
              simp
            rw [if_pos hguard]
            have hc1 : DCore G s { st with pq := rest } :=
              DCore_tail hpq hinv.toDCore
            have hdu1 : ({ st with pq := rest } : DState).dist u = JSNum.fin du :=
              hdu
            have hpode1 : ∀ v d, v ≠ u →
                ({ st with pq := rest } : DState).dist v = JSNum.fin d →
                (v, d) ∈ ({ st with pq := rest } : DState).pq ∨
                  DoneAt G ({ st with pq := rest } : DState).dist v d := by
              intro v d hvu hv
              rcases hinv.pqOrDone v d hv with hmem | hdone
              · rw [hpq] at hmem
                rcases List.mem_cons.mp hmem with h | h
                · exact absurd (congrArg Prod.fst h) hvu
                · exact Or.inl h
              · exact Or.inr hdone
            have hcore2 := relaxNbrs_core_measure HW hu hun hc1
            have hpod2 := @relaxNbrs_pod G s _ _ _ HC hc1 hdu1 hpode1
            have hkept1 : ∀ d,
                ({ st with pq := rest } : DState).dist e = JSNum.fin d →
                ∃ q, (e, q) ∈ ({ st with pq := rest } : DState).pq := by
              intro d hd
              obtain ⟨q2, hq2⟩ := hkept d hd
              rw [hpq] at hq2
              rcases List.mem_cons.mp hq2 with h | h
              · exact absurd (congrArg Prod.fst h).symm hue
              · exact ⟨q2, h⟩
            have hkept2 := @relaxNbrs_ekept G u _ _ hkept1
            have hm2 : dMeasure G (relaxNbrs G u { st with pq := rest }) < f := by
              have h1 := hcore2.2
              have h2 : ({ st with pq := rest } : DState).pq.length + 1 =
                  st.pq.length := by
                rw [hpq]
                rfl
              unfold dMeasure at hm ⊢
              have h3 : capSum G (G.nodes.length * maxWeight G + 1)
                  ({ st with pq := rest } : DState).dist =
                  capSum G (G.nodes.length * maxWeight G + 1) st.dist := rfl
              omega
            exact ih _ ⟨hcore2.1, hpod2⟩ hkept2 hm2

/-! ## The initial state of a run -/

theorem initDist_self {G : Graph} {s : Station} (Hs : s ∈ G.nodes) :
    initDist G s s = JSNum.fin 0 := by
  rw [initDist_eq]
  simp [Hs]

theorem DInv_init {G : Graph} {s : Station} (Hs : s ∈ G.nodes) :
    DInv G s { dist := initDist G s, prev := fun _ => none, pq := [(s, 0)] } := by
  have h0 : initDist G s s = JSNum.fin 0 := initDist_self Hs
  have hfin : ∀ v d, initDist G s v = JSNum.fin d → v = s ∧ d = 0 := by
    intro v d hv
    rw [initDist_eq] at hv
    by_cases hmem : v ∈ G.nodes
    · rw [if_pos hmem] at hv
      by_cases hvs : v = s
      · rw [if_pos hvs] at hv
        cases hv
        exact ⟨hvs, rfl⟩
      · rw [if_neg hvs] at hv
        cases hv
    · rw [if_neg hmem] at hv
      cases hv
  refine ⟨⟨?_, ?_, ?_, ?_, ?_, ?_⟩, ?_⟩
  · exact List.pairwise_singleton _ _
  · intro q hq
    rw [List.mem_singleton] at hq
    subst hq
    exact ⟨Hs, 0, h0, le_refl 0⟩
  · intro v
    show initDist G s v ≠ JSNum.undef ↔ v ∈ G.nodes
    rw [initDist_eq]
    by_cases hmem : v ∈ G.nodes
    · simp only [if_pos hmem, hmem, iff_true]
      by_cases hvs : v = s
      · rw [if_pos hvs]; simp
      · rw [if_neg hvs]; simp
    · simp [hmem]
  · exact ⟨h0, rfl⟩
  · intro v d hv hvs
    obtain ⟨hveq, _⟩ := hfin v d hv
    exact absurd hveq hvs
  · intro v d hv
    obtain ⟨hveq, hdeq⟩ := hfin v d hv
    subst hveq
    subst hdeq
    exact ⟨[v], List.nodup_singleton _, PD.single v Hs h0⟩
  · intro v d hv
    obtain ⟨hveq, hdeq⟩ := hfin v d hv
    subst hveq
    subst hdeq
    exact Or.inl (List.mem_singleton_self _)

theorem ekept_init {G : Graph} {s e : Station} :
    ∀ d, initDist G s e = JSNum.fin d → ∃ q, ((e, q) : PQEntry) ∈ [((s : Station), 0)] := by
  intro d hd
  rw [initDist_eq] at hd
  by_cases hmem : e ∈ G.nodes
  · rw [if_pos hmem] at hd
    by_cases hes : e = s
    · exact ⟨0, by rw [hes]; exact List.mem_singleton_self _⟩
    · rw [if_neg hes] at hd
      cases hd
  · rw [if_neg hmem] at hd
    cases hd

theorem jsCap_initDist_le (G : Graph) (s v : Station) (K : Nat) :
    jsCap K (initDist G s v) ≤ K := by
  rw [initDist_eq]
  by_cases hmem : v ∈ G.nodes
  · rw [if_pos hmem]
    by_cases hvs : v = s
    · rw [if_pos hvs]
      simp [jsCap]
    · rw [if_neg hvs]
      simp [jsCap]
  · rw [if_neg hmem]
    simp [jsCap]

theorem dMeasure_init_lt (G : Graph) (s : Station) :
    dMeasure G { dist := initDist G s, prev := fun _ => none, pq := [(s, 0)] } <
      dijkstraFuel G := by
  unfold dMeasure dijkstraFuel
  have hcap : capSum G (G.nodes.length * maxWeight G + 1) (initDist G s) ≤
      G.nodes.toFinset.card * (G.nodes.length * maxWeight G + 1) := by
    unfold capSum
    calc G.nodes.toFinset.sum
          (fun v => jsCap (G.nodes.length * maxWeight G + 1) (initDist G s v)) ≤
        G.nodes.toFinset.card • (G.nodes.length * maxWeight G + 1) :=
          Finset.sum_le_card_nsmul _ _ _
            (fun i _ => jsCap_initDist_le G s i _)
      _ = G.nodes.toFinset.card * (G.nodes.length * maxWeight G + 1) := by
          rw [smul_eq_mul]
  have hcard : G.nodes.toFinset.card ≤ G.nodes.length := List.toFinset_card_le _
  have h2 : G.nodes.toFinset.card * (G.nodes.length * maxWeight G + 1) ≤
      G.nodes.length * (G.nodes.length * maxWeight G + 1) :=
    Nat.mul_le_mul_right _ hcard
  show List.length [(s, 0)] + capSum G (G.nodes.length * maxWeight G + 1)
      (initDist G s) < G.nodes.length * (G.nodes.length * maxWeight G + 1) + 2
  have h3 : List.length [((s : Station), 0)] = 1 := rfl
  omega

theorem dijkstra_eq_run {G : Graph} {s e : Station}
    (hs : s ≠ "") (he : e ≠ "") (hn : G.nodes ≠ [])
    (h0 : initDist G s s = JSNum.fin 0) :
    dijkstra G s e =
      match dijkstraLoop G e (dijkstraFuel G)
        { dist := initDist G s, prev := fun _ => none, pq := [(s, 0)] } with
      | some p => p
      | none => [] := by
  unfold dijkstra
  rw [if_neg (by push_neg; exact ⟨hs, he, hn⟩)]
  dsimp only
  rw [h0]
  rfl

/-! ## The shortest-path claims -/

/-- **C1.**  For every graph whose links all have positive integer weights
(the data-model weight invariant) and whose links join stations of the
station set (the data-model link invariant; station identifiers are
non-empty uppercase letters, hence `"" ∉ G.nodes`), and for every pair of
stations `s`, `e` present in the graph with `e` reachable from `s`,
`computePath` (`dijkstra`) returns a sequence that is a walk of `G` from
`s` to `e` — so it starts with `s`, ends with `e`, and its consecutive
elements are joined by links — whose summed link weights `δ` are the least
element of the set of total weights of all walks from `s` to `e` in `G`. -/
theorem c1_computePath_shortest (G : Graph) (s e : Station)
    (HW : PositiveWeights G) (HC : ClosedEdges G) (Hem : "" ∉ G.nodes)
    (Hs : s ∈ G.nodes) (He : e ∈ G.nodes) (hreach : Reachable G s e) :
    ∃ δ, IsWalk G (dijkstra G s e) s e δ ∧ IsLeast (walkCosts G s e) δ ∧
      (dijkstra G s e).head? = some s ∧ (dijkstra G s e).getLast? = some e := by
  have hs : s ≠ "" := fun h => Hem (h ▸ Hs)
  have he2 : e ≠ "" := fun h => Hem (h ▸ He)
  have hn : G.nodes ≠ [] := fun h => by rw [h] at Hs; cases Hs
  have h0 : initDist G s s = JSNum.fin 0 := initDist_self Hs
  have hne : (walkCosts G s e).Nonempty := by
    obtain ⟨p, c, hw⟩ := hreach
    exact ⟨c, ⟨p, hw⟩⟩
  have hmem1 : sInf (walkCosts G s e) ∈ walkCosts G s e := Nat.sInf_mem hne
  have hlow1 : ∀ c2 ∈ walkCosts G s e, sInf (walkCosts G s e) ≤ c2 :=
    fun c2 hc2 => Nat.sInf_le hc2
  obtain ⟨pm, hpm⟩ : ∃ p, IsWalk G p s e (sInf (walkCosts G s e)) :=
    Nat.sInf_mem hne
  obtain ⟨r, hr, hwalk⟩ := dijkstraLoop_main HW HC Hem he2 ⟨pm, hpm⟩
    (fun c p hw => hlow1 c ⟨p, hw⟩) (dijkstraFuel G)
    { dist := initDist G s, prev := fun _ => none, pq := [(s, 0)] }
    (DInv_init Hs) ekept_init (dMeasure_init_lt G s)
  have heq : dijkstra G s e = r := by
    rw [dijkstra_eq_run hs he2 hn h0, hr]
  rw [heq]
  exact ⟨sInf (walkCosts G s e), hwalk, ⟨hmem1, hlow1⟩,
    hwalk.head_eq, hwalk.last_eq⟩

theorem c1_computePath_shortest_witness :
    PositiveWeights exGraph ∧ ClosedEdges exGraph ∧ "" ∉ exGraph.nodes ∧
    "A" ∈ exGraph.nodes ∧ "C" ∈ exGraph.nodes ∧ Reachable exGraph "A" "C" ∧
    (∃ δ, IsWalk exGraph (dijkstra exGraph "A" "C") "A" "C" δ ∧
      IsLeast (walkCosts exGraph "A" "C") δ ∧
      (dijkstra exGraph "A" "C").head? = some "A" ∧
      (dijkstra exGraph "A" "C").getLast? = some "C") := by
  have hw1 : IsWalk exGraph ["A"] "A" "A" 0 := IsWalk.single "A" (by decide)
  have hw2 : IsWalk exGraph (["A"] ++ ["B"]) "A" "B" (0 + 1) :=
    IsWalk.snoc ["A"] "A" "A" "B" 1 0 hw1
      ⟨⟨"A", "B", 1⟩, by decide, rfl, Or.inl ⟨rfl, rfl⟩⟩
  have hw3 : IsWalk exGraph ((["A"] ++ ["B"]) ++ ["C"]) "A" "C" ((0 + 1) + 1) :=
    IsWalk.snoc (["A"] ++ ["B"]) "A" "B" "C" 1 (0 + 1) hw2
      ⟨⟨"B", "C", 1⟩, by decide, rfl, Or.inl ⟨rfl, rfl⟩⟩
  have hreach : Reachable exGraph "A" "C" := ⟨_, _, hw3⟩
  refine ⟨?_, ?_, by decide, by decide, by decide, hreach,
    c1_computePath_shortest exGraph "A" "C" ?_ ?_ (by decide)
      (by decide) (by decide) hreach⟩ <;>
    first
      | (unfold PositiveWeights; decide)
      | (unfold ClosedEdges; decide)

/-- **C7.**  For every graph and every station `s` present in it (station
identifiers are non-empty), `computePath(G, s, s)` returns the
single-element path `[s]`: the start is enqueued with distance `0`,
dequeued immediately as the target, and the predecessor chain stops at the
start. -/
theorem c7_self_path (G : Graph) (s : Station) (Hs : s ∈ G.nodes)
    (hne : s ≠ "") : dijkstra G s s = [s] := by
  have hn : G.nodes ≠ [] := fun h => by rw [h] at Hs; cases Hs
  have h0 : initDist G s s = JSNum.fin 0 := initDist_self Hs
  rw [dijkstra_eq_run hne hne hn h0]
  obtain ⟨f, hf⟩ : ∃ f, dijkstraFuel G = f + 1 :=
    ⟨dijkstraFuel G - 1, by unfold dijkstraFuel; omega⟩
  rw [hf]
  rw [@dijkstraLoop_cons G s f
    { dist := initDist G s, prev := fun _ => none, pq := [(s, 0)] } s 0 [] rfl]
  rw [if_pos rfl]
  obtain ⟨g, hg⟩ : ∃ g, reconFuel G = g + 1 :=
    ⟨reconFuel G - 1, by unfold reconFuel; omega⟩
  show (reconstruct (fun _ => none) (reconFuel G) (some s) []) = [s]
  rw [hg, reconstruct_succ _ _ _ _ hne]
  rw [reconstruct_none]

theorem c7_self_path_witness :
    ("A" : Station) ∈ exGraph.nodes ∧ ("A" : Station) ≠ "" ∧
    dijkstra exGraph "A" "A" = ["A"] :=
  ⟨by decide, by decide, c7_self_path exGraph "A" (by decide) (by decide)⟩

/-- **C8.**  Over any graph of the data model (positive link weights),
`computePath(G, start, end)` returns the empty sequence whenever `start` or
`end` is absent from the station set or `end` is unreachable from `start`
(no walk joins them); the empty result is the normal return value of the
total function `dijkstra`, not an error or exception. -/
theorem c8_no_path_empty (G : Graph) (s e : Station) (HW : PositiveWeights G)
    (h : s ∉ G.nodes ∨ e ∉ G.nodes ∨ ¬ Reachable G s e) :
    dijkstra G s e = [] := by
  by_cases hs0 : s = "" ∨ e = "" ∨ G.nodes = []
  · unfold dijkstra
    rw [if_pos hs0]
  · push_neg at hs0
    obtain ⟨hs, he2, hn⟩ := hs0
    by_cases hsmem : s ∈ G.nodes
    · by_contra hcontra
      have heqrun := dijkstra_eq_run hs he2 hn (initDist_self hsmem)
      cases hloop : dijkstraLoop G e (dijkstraFuel G)
          { dist := initDist G s, prev := fun _ => none, pq := [(s, 0)] } with
      | none =>
          rw [heqrun, hloop] at hcontra
          exact hcontra rfl
      | some r =>
          have heq2 : dijkstra G s e = r := by rw [heqrun, hloop]
          rw [heq2] at hcontra
          obtain ⟨⟨c, hwalk⟩, hemem⟩ :=
            dijkstraLoop_sound HW he2 (dijkstraFuel G) _
              (DInv_init hsmem).toDCore r hloop hcontra
          rcases h with h | h | h
          · exact h hsmem
          · exact h hemem
          · exact h ⟨r, c, hwalk⟩
    · unfold dijkstra
      rw [if_neg (by push_neg; exact ⟨hs, he2, hn⟩)]
      dsimp only
      have h0 : ¬ initDist G s s = JSNum.fin 0 := by
        rw [initDist_eq, if_neg hsmem]
        simp
      rw [if_neg h0]
      obtain ⟨f, hf⟩ : ∃ f, dijkstraFuel G = f + 1 :=
        ⟨dijkstraFuel G - 1, by unfold dijkstraFuel; omega⟩
      rw [hf, dijkstraLoop_nil rfl]

theorem c8_no_path_empty_witness :
    PositiveWeights exGraph ∧
    (("A" : Station) ∉ exGraph.nodes ∨ ("D" : Station) ∉ exGraph.nodes ∨
      ¬ Reachable exGraph "A" "D") ∧
    dijkstra exGraph "A" "D" = [] :=
  ⟨by unfold PositiveWeights; decide, Or.inr (Or.inl (by decide)),
    c8_no_path_empty exGraph "A" "D" (by unfold PositiveWeights; decide)
      (Or.inr (Or.inl (by decide)))⟩

/-! ## Nonempty results start at the requested start station -/

theorem dijkstra_nonempty_walk {G : Graph} {s e : Station}
    (HW : PositiveWeights G) (hne : dijkstra G s e ≠ []) :
    ∃ c, IsWalk G (dijkstra G s e) s e c := by
  by_cases hs0 : s = "" ∨ e = "" ∨ G.nodes = []
  · exfalso
    apply hne
    unfold dijkstra
    rw [if_pos hs0]
  · push_neg at hs0
    obtain ⟨hs, he2, hn⟩ := hs0
    by_cases hsmem : s ∈ G.nodes
    · have heqrun := dijkstra_eq_run hs he2 hn (initDist_self hsmem)
      cases hloop : dijkstraLoop G e (dijkstraFuel G)
          { dist := initDist G s, prev := fun _ => none, pq := [(s, 0)] } with
      | none =>
          exfalso
          apply hne
          rw [heqrun, hloop]
      | some r =>
          have heq2 : dijkstra G s e = r := by rw [heqrun, hloop]
          rw [heq2] at hne ⊢
          exact (dijkstraLoop_sound HW he2 (dijkstraFuel G) _
            (DInv_init hsmem).toDCore r hloop hne).1
    · exfalso
      apply hne
      unfold dijkstra
      rw [if_neg (by push_neg; exact ⟨hs, he2, hn⟩)]
      dsimp only
      have h0 : ¬ initDist G s s = JSNum.fin 0 := by
        rw [initDist_eq, if_neg hsmem]
        simp
      rw [if_neg h0]
      obtain ⟨f, hf⟩ : ∃ f, dijkstraFuel G = f + 1 :=
        ⟨dijkstraFuel G - 1, by unfold dijkstraFuel; omega⟩
      rw [hf, dijkstraLoop_nil rfl]

theorem dijkstra_head {G : Graph} {s e : Station}
    (HW : PositiveWeights G) (hne : dijkstra G s e ≠ []) :
    (dijkstra G s e).head? = some s := by
  obtain ⟨c, hw⟩ := dijkstra_nonempty_walk HW hne
  exact hw.head_eq

/-! ## The splice performed by the re-route effect -/

theorem jsSlice0_indexOf {l : List Station} {pos : Station} (h : pos ∈ l) :
    jsSlice0 l (jsIndexOf l pos) = l.take (List.indexOf pos l) := by
  unfold jsSlice0 jsIndexOf
  rw [if_pos h]
  rw [if_neg (by
    push_neg
    exact Int.natCast_nonneg _)]
  rw [Int.toNat_natCast]

theorem take_indexOf_length {l : List Station} {pos : Station} (h : pos ∈ l) :
    (l.take (List.indexOf pos l)).length = List.indexOf pos l := by
  rw [List.length_take]
  exact min_eq_left (le_of_lt (List.indexOf_lt_length.mpr h))

theorem take_succ_indexOf {l : List Station} {pos : Station} (h : pos ∈ l) :
    l.take (List.indexOf pos l + 1) = l.take (List.indexOf pos l) ++ [pos] := by
  rw [List.take_succ]
  have hlt : List.indexOf pos l < l.length := List.indexOf_lt_length.mpr h
  have hget : l[List.indexOf pos l]? = some pos := by
    rw [List.getElem?_eq_getElem hlt]
    exact congrArg some (List.getElem_indexOf hlt)
  rw [hget]
  rfl

theorem reroute_adopt (S : AppState) (pos : Station)
    (hsim : S.isSimulating = true) (hpos : S.trainPosition = some pos)
    (hne : pos ≠ "") (hdest : S.destNode ≠ "")
    (hseg : dijkstra S.graph pos S.destNode ≠ []) :
    (reroute S).trainPosition = some pos ∧
    (reroute S).isSimulating = S.isSimulating ∧
    (reroute S).shortestPath =
      jsSlice0 S.shortestPath (jsIndexOf S.shortestPath pos) ++
        dijkstra S.graph pos S.destNode := by
  simp only [reroute, hpos]
  rw [if_pos ⟨by simp [hsim], hne, hdest⟩]
  rw [if_pos (List.length_pos.mpr hseg)]
  by_cases hch : jsSlice0 S.shortestPath (jsIndexOf S.shortestPath pos) ++
      dijkstra S.graph pos S.destNode ≠ S.shortestPath
  · rw [if_pos hch]
    exact ⟨rfl, rfl, rfl⟩
  · rw [if_neg hch]
    push_neg at hch
    exact ⟨rfl, rfl, hch.symm⟩

/-- **C2.** When the edge set changes while a journey is in transit (active
flag set, position `pos` defined and on the adopted path, destination set),
the re-route effect leaves the train position unchanged, recomputes the
remaining route as `dijkstra S.graph pos S.destNode` — the current position,
never the original `sourceNode`, is the start of the recomputed segment, as
the third conjunct shows the adopted suffix from the position's index is
exactly that segment — and the adopted path's prefix up to and including the
current position is identical to the corresponding prefix of the previous
path.  `pos ∈ S.shortestPath` is the journey invariant (claim C10);
positive weights hold for every graph built by the edge form (claim C5);
the non-empty recomputed segment puts us in the "adopt" branch (the empty
case is claim C3). -/
theorem c2_reroute_prefix (S : AppState) (pos : Station)
    (HW : PositiveWeights S.graph)
    (hsim : S.isSimulating = true)
    (hpos : S.trainPosition = some pos)
    (hne : pos ≠ "") (hdest : S.destNode ≠ "")
    (hmem : pos ∈ S.shortestPath)
    (hseg : dijkstra S.graph pos S.destNode ≠ []) :
    (reroute S).trainPosition = some pos ∧
    (reroute S).shortestPath.take (List.indexOf pos S.shortestPath + 1) =
      S.shortestPath.take (List.indexOf pos S.shortestPath + 1) ∧
    (reroute S).shortestPath.drop (List.indexOf pos S.shortestPath) =
      dijkstra S.graph pos S.destNode := by
  obtain ⟨htp, -, hpath⟩ := reroute_adopt S pos hsim hpos hne hdest hseg
  rw [jsSlice0_indexOf hmem] at hpath
  have hlen : (S.shortestPath.take (List.indexOf pos S.shortestPath)).length =
      List.indexOf pos S.shortestPath := take_indexOf_length hmem
  have hhead : (dijkstra S.graph pos S.destNode).head? = some pos :=
    dijkstra_head HW hseg
  obtain ⟨t, ht⟩ : ∃ t, dijkstra S.graph pos S.destNode = pos :: t := by
    cases hsg : dijkstra S.graph pos S.destNode with
    | nil => exact absurd hsg hseg
    | cons a t =>
        rw [hsg] at hhead
        exact ⟨t, by rw [Option.some_inj.mp hhead]⟩
  refine ⟨htp, ?_, ?_⟩
  · rw [hpath, List.take_append_eq_append_take, hlen, List.take_take,
      min_eq_right (Nat.le_succ _)]
    have h2 : List.indexOf pos S.shortestPath + 1 - List.indexOf pos S.shortestPath = 1 := by
      omega
    rw [h2, ht]
    rw [take_succ_indexOf hmem]
    rfl
  · rw [hpath]
    have h3 := List.drop_left (S.shortestPath.take (List.indexOf pos S.shortestPath))
      (dijkstra S.graph pos S.destNode)
    rw [hlen] at h3
    exact h3

/-- Witness for C2: specification scenario 2 — after editing `A-B` to
weight 10 while in transit at `A` on `[A, B, C]` towards `C`, the recomputed
segment from the current position `A` is `[A, C]`. -/
theorem c2_reroute_prefix_witness :
    PositiveWeights exTransit.graph ∧ exTransit.isSimulating = true ∧
    exTransit.trainPosition = some "A" ∧ ("A" : Station) ≠ "" ∧
    exTransit.destNode ≠ "" ∧ "A" ∈ exTransit.shortestPath ∧
    dijkstra exTransit.graph "A" exTransit.destNode ≠ [] ∧
    ((reroute exTransit).trainPosition = some "A" ∧
     (reroute exTransit).shortestPath.take (List.indexOf "A" exTransit.shortestPath + 1) =
       exTransit.shortestPath.take (List.indexOf "A" exTransit.shortestPath + 1) ∧
     (reroute exTransit).shortestPath.drop (List.indexOf "A" exTransit.shortestPath) =
       dijkstra exTransit.graph "A" exTransit.destNode) :=
  ⟨by unfold PositiveWeights; decide, rfl, rfl, by decide, by decide, by decide,
   by decide,
   c2_reroute_prefix exTransit "A" (by unfold PositiveWeights; decide) rfl rfl
     (by decide) (by decide) (by decide) (by decide)⟩

/-- **C10.** Whenever the active flag is set the train position is an element
of the current path: (a) `startSimulation` establishes the invariant — given
that the first element of the computed path is the selected source, which is
exactly the claim's parenthetical and is what `handleCalculatePath` produces
(conjunct (d)) — and sets the position to the source; (b) `handleProceed`
preserves it, since it only moves the position to an element read out of the
path (or clears the flag on arrival); (c) the re-route step preserves it,
since the adopted path contains the unchanged current position as the head
of the recomputed segment; (d) a non-empty path computed by
`handleCalculatePath` starts at the selected source. -/
theorem c10_position_on_path :
    (∀ S : AppState, S.shortestPath ≠ [] → S.sourceNode ≠ "" → S.destNode ≠ "" →
       S.shortestPath.head? = some S.sourceNode →
       JourneyInv (startSimulation S) ∧
       (startSimulation S).trainPosition = some S.sourceNode) ∧
    (∀ S : AppState, JourneyInv S → JourneyInv (handleProceed S)) ∧
    (∀ S : AppState, PositiveWeights S.graph → JourneyInv S →
       JourneyInv (reroute S)) ∧
    (∀ S : AppState, PositiveWeights S.graph → S.sourceNode ≠ "" → S.destNode ≠ "" →
       (handleCalculatePath S).shortestPath ≠ [] →
       (handleCalculatePath S).shortestPath.head? = some S.sourceNode) := by
  refine ⟨?_, ?_, ?_, ?_⟩
  · intro S hne hsrc hdst hhead
    unfold startSimulation
    rw [if_pos ⟨List.length_pos.mpr hne, hsrc, hdst⟩]
    constructor
    · intro _
      refine ⟨S.sourceNode, rfl, ?_⟩
      have : S.sourceNode ∈ S.shortestPath.head? := by rw [hhead]; rfl
      exact List.mem_of_mem_head? this
    · rfl
  · intro S hinv
    cases hp : S.trainPosition with
    | none => simp only [handleProceed, hp]; exact hinv
    | some pos =>
        simp only [handleProceed, hp]
        by_cases hc : S.isSimulating = false ∨ pos = ""
        · rw [if_pos hc]; exact hinv
        · rw [if_neg hc]
          by_cases hlt : jsIndexOf S.shortestPath pos < (S.shortestPath.length : Int) - 1
          · rw [if_pos hlt]
            cases hg : S.shortestPath.get? (jsIndexOf S.shortestPath pos + 1).toNat with
            | none => exact hinv
            | some nextPos =>
                dsimp only
                by_cases hd : nextPos = S.destNode
                · rw [if_pos hd]
                  intro habs
                  simp at habs
                · rw [if_neg hd]
                  intro _
                  exact ⟨nextPos, rfl, List.get?_mem hg⟩
          · rw [if_neg hlt]; exact hinv
  · intro S HW hinv
    cases hp : S.trainPosition with
    | none => simp only [reroute, hp]; exact hinv
    | some pos =>
        by_cases hcond : S.isSimulating ∧ pos ≠ "" ∧ S.destNode ≠ ""
        · obtain ⟨hsim, hne, hdst⟩ := hcond
          by_cases hseg : dijkstra S.graph pos S.destNode = []
          · simp only [reroute, hp]
            rw [if_pos ⟨hsim, hne, hdst⟩]
            rw [if_neg (by rw [hseg]; decide)]
            intro habs
            simp [stopSimulation] at habs
          · obtain ⟨htp, hsim2, hpath⟩ := reroute_adopt S pos hsim hp hne hdst hseg
            intro _
            refine ⟨pos, htp, ?_⟩
            rw [hpath]
            refine List.mem_append_right _ ?_
            have hhead := dijkstra_head HW hseg
            have : pos ∈ (dijkstra S.graph pos S.destNode).head? := by rw [hhead]; rfl
            exact List.mem_of_mem_head? this
        · simp only [reroute, hp]
          rw [if_neg hcond]
          exact hinv
  · intro S HW hsrc hdst
    unfold handleCalculatePath
    rw [if_neg (by push_neg; exact ⟨hsrc, hdst⟩)]
    dsimp only
    by_cases hlen : (dijkstra S.graph S.sourceNode S.destNode).length > 0
    · rw [if_pos hlen]
      intro _
      exact dijkstra_head HW (List.length_pos.mp hlen)
    · rw [if_neg hlen]
      intro habs
      exact absurd rfl habs

/-- Witness for C10: the invariant on the in-transit state of scenario 2,
under every part of the theorem. -/
theorem c10_position_on_path_witness :
    exTransit.shortestPath ≠ [] ∧ exTransit.sourceNode ≠ "" ∧
    exTransit.destNode ≠ "" ∧
    exTransit.shortestPath.head? = some exTransit.sourceNode ∧
    (JourneyInv (startSimulation exTransit) ∧
      (startSimulation exTransit).trainPosition = some exTransit.sourceNode) ∧
    JourneyInv exTransit ∧ JourneyInv (handleProceed exTransit) ∧
    PositiveWeights exTransit.graph ∧ JourneyInv (reroute exTransit) ∧
    (handleCalculatePath exTransit).shortestPath ≠ [] ∧
    (handleCalculatePath exTransit).shortestPath.head? = some exTransit.sourceNode :=
  ⟨by decide, by decide, by decide, by decide,
   c10_position_on_path.1 exTransit (by decide) (by decide) (by decide) (by decide),
   fun _ => ⟨"A", rfl, by decide⟩,
   c10_position_on_path.2.1 exTransit (fun _ => ⟨"A", rfl, by decide⟩),
   by unfold PositiveWeights; decide,
   c10_position_on_path.2.2.1 exTransit (by unfold PositiveWeights; decide)
     (fun _ => ⟨"A", rfl, by decide⟩),
   by decide,
   c10_position_on_path.2.2.2 exTransit (by unfold PositiveWeights; decide)
     (by decide) (by decide) (by decide)⟩
